import Mathlib

/-!
Verification of the dataset-splitting and model-assembly code of the
PetPonks model-training notebook (`model.ipynb`).

The notebook's own code is `split_data` (a directory splitter built on
scikit-learn's `train_test_split` with `random_state=42`), the backbone
freeze/unfreeze lifecycle, and the Sequential model assembly.  We embed:

* a filesystem state (`FS`) with files (path to byte content) and
  directories, over paths modelled as lists of name components (the code
  only ever joins single components with `os.path.join`, so component
  lists are a faithful rendering of the string paths);
* `os.listdir` (returns the child names of a directory, failing on a
  missing directory), `os.makedirs(..., exist_ok=True)`, `shutil.copy`
  (read source bytes, fail if unreadable, write destination);
* scikit-learn's `train_test_split(xs, test_size=r, random_state=seed)`:
  it draws a pseudorandom permutation of `range n` determined by the
  seed, takes `ceil(n*r)` indices for the test set and the rest for the
  train set, and fails when the train side would be empty.  The
  Mersenne-Twister permutation itself is abstracted as an oracle
  `perm : seed -> n -> List Nat` about which we only assume that it
  yields a permutation of `range n`; every theorem below holds for any
  such oracle, hence for the real one.  `test_size=0.2` is the float
  `0.2`; we compute with the exact rational, which agrees with the
  float computation on the sizes at issue here;
* `split_data` itself, looping over the class directories, filtering by
  extension, splitting, creating destination directories and copying,
  and finally recounting both destination trees for the printed report;
* the trainability lifecycle of the InceptionV3 backbone and the
  Sequential model assembly with its final softmax Dense layer.
-/

/-- A filesystem path, as the list of its name components. -/
abbrev FPath : Type := List String

/-- File contents, as a byte sequence. -/
abbrev Content : Type := List Nat

/-- A filesystem state: files with their contents, and the set of existing
directories.  Later file entries for the same path are shadowed by earlier
ones, so overwriting is modelled by consing a new entry. -/
structure FS where
  files : List (FPath × Content)
  dirs : List FPath
deriving DecidableEq

/-- Read the contents of the file at `p`, if present (`open(p).read()`). -/
def FS.read (fs : FS) (p : FPath) : Option Content :=
  match fs.files.find? (fun e => decide (e.1 = p)) with
  | some e => some e.2
  | none => none

/-- Write contents `c` at path `p` (creating or overwriting). -/
def FS.write (fs : FS) (p : FPath) (c : Content) : FS :=
  { fs with files := (p, c) :: fs.files }

/-- `os.path.isdir`. -/
def FS.isdir (fs : FS) (p : FPath) : Bool :=
  decide (p ∈ fs.dirs)

/-- `a` is an initial segment of `b` (as component lists). -/
def seg (a b : FPath) : Prop :=
  b.take a.length = a

instance segDecidable (a b : FPath) : Decidable (seg a b) :=
  inferInstanceAs (Decidable (b.take a.length = a))

/-- Two directory paths are separated: neither lies on the other's chain.
This is the sanity condition the notebook's layout (`data`, `train`,
`val`, three distinct sibling directories) satisfies. -/
def pathSep (a b : FPath) : Prop :=
  ¬ seg a b ∧ ¬ seg b a

instance pathSepDecidable (a b : FPath) : Decidable (pathSep a b) :=
  inferInstanceAs (Decidable (¬ seg a b ∧ ¬ seg b a))

/-- The name under which `q` appears as an immediate child of directory
`p`, when `q` lies strictly inside `p`. -/
def childOf (p q : FPath) : Option String :=
  if seg p q ∧ p.length < q.length then q.get? p.length else none

/-- Append `x` unless already present: accumulates a duplicate-free list
keeping first occurrences. -/
def addNew (acc : List String) (x : String) : List String :=
  if x ∈ acc then acc else acc ++ [x]

/-- The distinct immediate child names of `p` among the given paths. -/
def childNames (paths : List FPath) (p : FPath) : List String :=
  (paths.filterMap (childOf p)).foldl addNew []

/-- `os.listdir p`: the immediate children of `p` (subdirectories and
files), or failure when `p` is not an existing directory. -/
def FS.listdir (fs : FS) (p : FPath) : Option (List String) :=
  if p ∈ fs.dirs then some (childNames (fs.dirs ++ fs.files.map Prod.fst) p) else none

/-- The chain of directories `os.makedirs p` brings into existence:
every initial segment of `p`. -/
def dirChain (p : FPath) : List FPath :=
  (List.range (p.length + 1)).map (fun k => p.take k)

/-- `os.makedirs(p, exist_ok=True)`. -/
def FS.makedirs (fs : FS) (p : FPath) : FS :=
  { fs with dirs := fs.dirs ++ dirChain p }

/-- `shutil.copy src dst`: read the source (errors propagate when it is
missing or unreadable) and write its bytes at the destination. -/
def FS.copy (fs : FS) (src dst : FPath) : Except String FS :=
  match fs.read src with
  | none => .error "cannot read source file"
  | some c => .ok (fs.write dst c)

/-- Python's case-sensitive `s.endswith(suf)`: the last `len(suf)`
characters of `s` equal `suf`. -/
def strEndsWith (s suf : String) : Bool :=
  decide (s.data.drop (s.data.length - suf.data.length) = suf.data)

/-- The extension filter of `split_data`:
`img.endswith(('.jpg', '.jpeg', '.png'))` — case-sensitive. -/
def extOk (s : String) : Bool :=
  strEndsWith s ".jpg" || strEndsWith s ".jpeg" || strEndsWith s ".png"

/-- scikit-learn's test-set size for `n` samples and float `test_size`
`rat`: `ceil(rat * n)` (`_validate_shuffle_split`).  The product is
written at the numerator/denominator level so that it evaluates by
kernel reduction; `nTestOf_eq` below proves it equal to
`⌈(n : ℚ) * rat⌉₊`. -/
def nTestOf (n : Nat) (rat : ℚ) : Nat :=
  Nat.ceil (mkRat (rat.num * n) rat.den)

theorem nTestOf_eq (n : Nat) (rat : ℚ) : nTestOf n rat = Nat.ceil ((n : ℚ) * rat) := by
  unfold nTestOf
  congr 1
  rw [Rat.mkRat_eq_div]
  push_cast
  rw [mul_comm ((rat.num : ℚ)) (n : ℚ), mul_div_assoc, Rat.num_div_den]

/-- `sklearn.model_selection.train_test_split(xs, test_size=rat,
random_state=seed)` given the seeded permutation `perm` of
`range xs.length`: the first `ceil(n*rat)` permuted positions form the
test (validation) set, the remaining `n - ceil(n*rat)` the train set;
raises when the train side would be empty (which also covers `n = 0`).
Returns `(train, test)` in the library's order. -/
def train_test_split (perm : List Nat) (xs : List String) (rat : ℚ) :
    Except String (List String × List String) :=
  let n := xs.length
  let nTest := nTestOf n rat
  let nTrain := n - nTest
  if nTrain = 0 then .error "the resulting train set will be empty"
  else .ok (((perm.drop nTest).take nTrain).filterMap (fun i => xs.get? i),
            (perm.take nTest).filterMap (fun i => xs.get? i))

/-- The per-class split `split_data` performs, given the seeded
permutation oracle `rng` (already specialized to `random_state=42`):
`train_test_split(images, test_size=split_ratio, random_state=42)`. -/
def splitSets (rng : Nat → List Nat) (images : List String) (rat : ℚ) :
    Except String (List String × List String) :=
  train_test_split (rng images.length) images rat

/-- The copy loop `for img in imgs: shutil.copy(srcD/img, dstD/img)`. -/
def copyAll (srcD dstD : FPath) (imgs : List String) (fs : FS) : Except String FS :=
  match imgs with
  | [] => .ok fs
  | i :: rest =>
    match fs.copy (srcD ++ [i]) (dstD ++ [i]) with
    | .error e => .error e
    | .ok fs1 => copyAll srcD dstD rest fs1

/-- One iteration of `split_data`'s loop over `os.listdir(source_dir)`:
skip non-directories; list the class directory, keep names ending in
`.jpg`/`.jpeg`/`.png`, split them with the seeded splitter, create both
destination class directories, then copy the train images and the
validation images to their destinations. -/
def processClass (rng : Nat → List Nat) (source_dir train_dir val_dir : FPath)
    (rat : ℚ) (fs : FS) (class_name : String) : Except String FS :=
  let class_dir := source_dir ++ [class_name]
  if fs.isdir class_dir then
    match fs.listdir class_dir with
    | none => .error "listdir failed"
    | some entries =>
      let images := entries.filter extOk
      match splitSets rng images rat with
      | .error e => .error e
      | .ok (train_images, val_images) =>
        let fs1 := (fs.makedirs (train_dir ++ [class_name])).makedirs (val_dir ++ [class_name])
        match copyAll class_dir (train_dir ++ [class_name]) train_images fs1 with
        | .error e => .error e
        | .ok fs2 => copyAll class_dir (val_dir ++ [class_name]) val_images fs2
  else .ok fs

/-- The whole `for class_name in os.listdir(source_dir)` loop. -/
def processAll (rng : Nat → List Nat) (source_dir train_dir val_dir : FPath)
    (rat : ℚ) (names : List String) (fs : FS) : Except String FS :=
  match names with
  | [] => .ok fs
  | n :: rest =>
    match processClass rng source_dir train_dir val_dir rat fs n with
    | .error e => .error e
    | .ok fs1 => processAll rng source_dir train_dir val_dir rat rest fs1

/-- `sum(len(os.listdir(dir/d)) for d in ds)`: errors when some `dir/d`
is not a directory. -/
def countAll (fs : FS) (dir : FPath) (ds : List String) : Except String Nat :=
  match ds with
  | [] => .ok 0
  | d :: rest =>
    match fs.listdir (dir ++ [d]) with
    | none => .error "not a directory"
    | some l =>
      match countAll fs dir rest with
      | .error e => .error e
      | .ok m => .ok (l.length + m)

/-- The aggregate count `split_data` prints for one destination root:
`sum(len(os.listdir(os.path.join(dir, d))) for d in os.listdir(dir))`. -/
def reportedCount (fs : FS) (dir : FPath) : Except String Nat :=
  match fs.listdir dir with
  | none => .error "destination root missing"
  | some ds => countAll fs dir ds

/-- `split_data(source_dir, train_dir, val_dir, split_ratio)` of the
notebook, over a permutation oracle `perm : seed → n → permutation of
range n` abstracting numpy's seeded generator; every call passes
`random_state=42`.  Returns the final filesystem together with the two
printed aggregate counts. -/
def split_data (perm : Nat → Nat → List Nat) (fs : FS)
    (source_dir train_dir val_dir : FPath) (rat : ℚ) :
    Except String (FS × Nat × Nat) :=
  match fs.listdir source_dir with
  | none => .error "source directory missing"
  | some names =>
    match processAll (perm 42) source_dir train_dir val_dir rat names fs with
    | .error e => .error e
    | .ok fsF =>
      match reportedCount fsF train_dir with
      | .error e => .error e
      | .ok tcount =>
        match reportedCount fsF val_dir with
        | .error e => .error e
        | .ok vcount => .ok (fsF, tcount, vcount)

/-- A permutation oracle is valid when each `perm seed n` is a
permutation of `range n`; numpy's `RandomState(seed).permutation(n)` is
one such. -/
def ValidPerm (perm : Nat → Nat → List Nat) : Prop :=
  ∀ seed n, (perm seed n).Perm (List.range n)

/-- The identity oracle: a concrete valid permutation oracle used to
instantiate witnesses. -/
def idPerm : Nat → Nat → List Nat :=
  fun _ n => List.range n

theorem idPerm_valid : ValidPerm idPerm :=
  fun _ _ => List.Perm.refl _

deriving instance DecidableEq for Except

/-! ### Helper lemmas about selecting list elements by index lists -/

theorem filterMap_get_length (xs : List String) (idx : List Nat)
    (h : ∀ i ∈ idx, i < xs.length) :
    (idx.filterMap (fun i => xs.get? i)).length = idx.length := by
  induction idx with
  | nil => simp
  | cons i rest ih =>
    have hi : i < xs.length := h i (List.mem_cons_self i rest)
    have hsome : xs.get? i = some (xs.get ⟨i, hi⟩) := List.get?_eq_get hi
    rw [List.filterMap_cons_some hsome, List.length_cons, List.length_cons,
      ih (fun j hj => h j (List.mem_cons_of_mem i hj))]

theorem range_filterMap_get (xs : List String) :
    (List.range xs.length).filterMap (fun i => xs.get? i) = xs := by
  induction xs with
  | nil => simp
  | cons x xs ih =>
    rw [List.length_cons, List.range_succ_eq_map, List.filterMap_cons]
    have h0 : (x :: xs).get? 0 = some x := rfl
    rw [h0, List.filterMap_map]
    have hc : ((fun i => (x :: xs).get? i) ∘ Nat.succ) = fun i => xs.get? i := rfl
    rw [hc, ih]

theorem filterMap_get_perm (xs : List String) (idx : List Nat)
    (h : idx.Perm (List.range xs.length)) :
    (idx.filterMap (fun i => xs.get? i)).Perm xs := by
  have := h.filterMap (fun i => xs.get? i)
  rwa [range_filterMap_get] at this

theorem mem_of_mem_filterMap_get (xs : List String) (idx : List Nat)
    (y : String) (h : y ∈ idx.filterMap (fun i => xs.get? i)) : y ∈ xs := by
  rcases List.mem_filterMap.1 h with ⟨i, _, hget⟩
  exact List.get?_mem hget

/-! ### Shape of a successful `train_test_split` -/

theorem tts_ok (perm : List Nat) (xs : List String) (rat : ℚ) (tr va : List String)
    (hrun : train_test_split perm xs rat = .ok (tr, va)) :
    xs.length - nTestOf xs.length rat ≠ 0 ∧
    tr = ((perm.drop (nTestOf xs.length rat)).take (xs.length - nTestOf xs.length rat)).filterMap
        (fun i => xs.get? i) ∧
    va = (perm.take (nTestOf xs.length rat)).filterMap (fun i => xs.get? i) := by
  unfold train_test_split at hrun
  by_cases h0 : xs.length - nTestOf xs.length rat = 0
  · rw [if_pos h0] at hrun
    exact absurd hrun (by simp)
  · rw [if_neg h0] at hrun
    obtain ⟨h1, h2⟩ := Prod.mk.injEq .. ▸ (Except.ok.injEq _ _ ▸ hrun)
    exact ⟨h0, h1.symm, h2.symm⟩

theorem tts_sizes (perm : List Nat) (xs : List String) (rat : ℚ) (tr va : List String)
    (hperm : perm.Perm (List.range xs.length))
    (hrun : train_test_split perm xs rat = .ok (tr, va)) :
    va.length = nTestOf xs.length rat ∧
    tr.length = xs.length - nTestOf xs.length rat := by
  obtain ⟨h0, htr, hva⟩ := tts_ok _ _ _ _ _ hrun
  have hlen : perm.length = xs.length := hperm.length_eq.trans (List.length_range _)
  have hmem : ∀ i ∈ perm, i < xs.length := fun i hi =>
    List.mem_range.1 (hperm.mem_iff.1 hi)
  constructor
  · rw [hva, filterMap_get_length]
    · rw [List.length_take, hlen]; omega
    · exact fun i hi => hmem i (List.mem_of_mem_take hi)
  · rw [htr, filterMap_get_length]
    · rw [List.length_take, List.length_drop, hlen]; omega
    · exact fun i hi => hmem i (List.mem_of_mem_drop (List.mem_of_mem_take hi))

/-- The index lists of a successful split jointly permute the whole
index permutation. -/
theorem tts_index_split (perm : List Nat) (xs : List String) (rat : ℚ)
    (hperm : perm.Perm (List.range xs.length))
    (h0 : xs.length - nTestOf xs.length rat ≠ 0) :
    ((perm.drop (nTestOf xs.length rat)).take (xs.length - nTestOf xs.length rat) ++
      perm.take (nTestOf xs.length rat)).Perm (List.range xs.length) := by
  have hlen : perm.length = xs.length := hperm.length_eq.trans (List.length_range _)
  have htake : (perm.drop (nTestOf xs.length rat)).take
      (xs.length - nTestOf xs.length rat) = perm.drop (nTestOf xs.length rat) := by
    apply List.take_of_length_le
    rw [List.length_drop, hlen]
  rw [htake]
  refine List.Perm.trans ?_ hperm
  refine List.Perm.trans List.perm_append_comm ?_
  rw [List.take_append_drop]

/-- Claim C1 (amended): for a class whose filtered image list has `N`
entries, a successful seeded split yields a validation set of size
`⌈N·r⌉` (scikit-learn rounds the test share up, not to nearest) and a
train set making the two sizes sum to `N`.  `splitSets (perm 42)` is
exactly the split `split_data` performs for each class directory. -/
theorem claim_c1 (perm : Nat → Nat → List Nat) (hperm : ValidPerm perm)
    (images : List String) (rat : ℚ) (tr va : List String)
    (hrun : splitSets (perm 42) images rat = .ok (tr, va)) :
    va.length = Nat.ceil ((images.length : ℚ) * rat) ∧
    tr.length + va.length = images.length := by
  have hp := hperm 42 images.length
  obtain ⟨hva, htr⟩ := tts_sizes _ _ _ _ _ hp hrun
  obtain ⟨h0, -, -⟩ := tts_ok _ _ _ _ _ hrun
  have hkn : nTestOf images.length rat ≤ images.length := by
    by_contra hlt
    omega
  constructor
  · rw [hva, nTestOf_eq]
  · omega

/-- Claim C1 witness: a class folder with 50 images at ratio 0.2 yields
40 train and 10 validation images. -/
theorem claim_c1_witness :
    (List.replicate 10 "x.jpg").length = Nat.ceil (((List.replicate 50 "x.jpg").length : ℚ) * mkRat 1 5) ∧
    (List.replicate 40 "x.jpg").length + (List.replicate 10 "x.jpg").length =
      (List.replicate 50 "x.jpg").length :=
  claim_c1 idPerm idPerm_valid (List.replicate 50 "x.jpg") (mkRat 1 5)
    (List.replicate 40 "x.jpg") (List.replicate 10 "x.jpg") (by decide)

/-- The two-image class directory on which claim C1's `round` formula
disagrees with the code: `data/c` holds `a.jpg` and `b.jpg`. -/
def twoImageFS : FS :=
  { files := [(["data", "c", "a.jpg"], [1, 2]), (["data", "c", "b.jpg"], [3])],
    dirs := [["data"], ["data", "c"]] }

/-- Claim C1 counterexample: on a class with `N = 2` images at ratio
`r = 0.2`, `split_data` puts `1` file in the validation split (scikit-learn
takes `ceil(2·0.2) = 1`), while the claim's `round(N·r) = round(0.4) = 0`. -/
theorem claim_c1_cex :
    (split_data idPerm twoImageFS ["data"] ["train"] ["val"] (mkRat 1 5)).map
      (fun z => z.2.2) = .ok 1 ∧
    (mkRat 1 5 : ℚ) = 1 / 5 ∧
    round ((2 : ℚ) * (1 / 5)) = 0 := by
  refine ⟨by decide, by rw [Rat.mkRat_eq_div]; norm_num, by norm_num [round_eq]⟩

/-- Claim C2: the per-class train and validation sets `split_data`
produces are disjoint, and together they are a permutation of (so in
particular their union as a set equals) the class's filtered image
list.  Holds whenever the listing has no duplicate names, which
`os.listdir` guarantees. -/
theorem claim_c2 (perm : Nat → Nat → List Nat) (hperm : ValidPerm perm)
    (images : List String) (rat : ℚ) (tr va : List String)
    (hnd : images.Nodup)
    (hrun : splitSets (perm 42) images rat = .ok (tr, va)) :
    (∀ x ∈ tr, x ∉ va) ∧ (tr ++ va).Perm images := by
  have hp := hperm 42 images.length
  obtain ⟨h0, htr, hva⟩ := tts_ok _ _ _ _ _ hrun
  have hidx := tts_index_split (perm 42 images.length) images rat hp h0
  have hunion : (tr ++ va).Perm images := by
    rw [htr, hva, ← List.filterMap_append]
    exact filterMap_get_perm _ _ hidx
  refine ⟨?_, hunion⟩
  have hnodup_perm : (perm 42 images.length).Nodup :=
    hp.nodup_iff.2 (List.nodup_range _)
  have hnodup_idx : ((perm 42 images.length).take (nTestOf images.length rat) ++
      (perm 42 images.length).drop (nTestOf images.length rat)).Nodup := by
    rw [List.take_append_drop]; exact hnodup_perm
  have hdisj := (List.nodup_append.1 hnodup_idx).2.2
  intro x hxtr hxva
  rw [htr] at hxtr
  rw [hva] at hxva
  rcases List.mem_filterMap.1 hxtr with ⟨i, hi, hgi⟩
  rcases List.mem_filterMap.1 hxva with ⟨j, hj, hgj⟩
  have hi' : i ∈ (perm 42 images.length).drop (nTestOf images.length rat) :=
    List.mem_of_mem_take hi
  have hij : i = j := by
    have hilt : i < images.length := by
      rcases List.get?_eq_some.1 hgi with ⟨hw, -⟩
      exact hw
    exact List.get?_inj hilt hnd (hgi.trans hgj.symm)
  exact hdisj (hij ▸ hj) hi'

/-- Claim C2 witness: a three-image class at ratio 0.2 splits into
train `[b.jpg, c.jpg]` and validation `[a.jpg]`: disjoint, and jointly
a permutation of the original listing. -/
theorem claim_c2_witness :
    (∀ x ∈ (["b.jpg", "c.jpg"] : List String), x ∉ (["a.jpg"] : List String)) ∧
    ((["b.jpg", "c.jpg"] ++ ["a.jpg"] : List String)).Perm ["a.jpg", "b.jpg", "c.jpg"] :=
  claim_c2 idPerm idPerm_valid ["a.jpg", "b.jpg", "c.jpg"] (mkRat 1 5)
    ["b.jpg", "c.jpg"] ["a.jpg"] (by decide) (by decide)

/-- Claim C3: `split_data` is deterministic — its result depends on the
permutation oracle only through the fixed seed 42 it passes as
`random_state`, so two runs whose seeded generators agree at seed 42
produce identical results (filesystem and reported counts) on the same
input state. -/
theorem claim_c3 (p1 p2 : Nat → Nat → List Nat) (fs : FS)
    (source_dir train_dir val_dir : FPath) (rat : ℚ)
    (h : p1 42 = p2 42) :
    split_data p1 fs source_dir train_dir val_dir rat =
      split_data p2 fs source_dir train_dir val_dir rat := by
  unfold split_data
  rw [h]

/-- A second oracle that differs from `idPerm` away from seed 42 but
agrees with it there. -/
def altPerm : Nat → Nat → List Nat :=
  fun seed n => if seed = 0 then [] else List.range n

/-- Claim C3 witness: two different oracles agreeing at seed 42 give
identical `split_data` runs on the two-image filesystem. -/
theorem claim_c3_witness :
    split_data idPerm twoImageFS ["data"] ["train"] ["val"] (mkRat 1 5) =
      split_data altPerm twoImageFS ["data"] ["train"] ["val"] (mkRat 1 5) :=
  claim_c3 idPerm altPerm twoImageFS ["data"] ["train"] ["val"] (mkRat 1 5)
    (by funext n; rfl)

/-! ### Backbone trainability lifecycle (cells 12 and 18 of the notebook) -/

/-- `base_model.trainable = v`: Keras propagates the flag to every
layer of the model.  A backbone is its list of per-layer trainability
flags. -/
def setAllTrainable (layers : List Bool) (v : Bool) : List Bool :=
  layers.map (fun _ => v)

/-- `for layer in base_model.layers[:k]: layer.trainable = False`. -/
def freezeFirst (k : Nat) (layers : List Bool) : List Bool :=
  (layers.take k).map (fun _ => false) ++ layers.drop k

/-- Phase one of the lifecycle: `base_model.trainable = False` before
the first training run. -/
def phase1Layers (layers : List Bool) : List Bool :=
  setAllTrainable layers false

/-- Phase two of the lifecycle: `base_model.trainable = True` followed
by freezing the first 249 layers, before the fine-tuning run.  These
are the only two writes of trainability in the notebook. -/
def phase2Layers (layers : List Bool) : List Bool :=
  freezeFirst 249 (setAllTrainable (phase1Layers layers) true)

theorem map_const_getElem (c : Bool) (l : List Bool) (i : Nat) :
    (l.map (fun _ => c))[i]? = if i < l.length then some c else none := by
  by_cases h : i < l.length
  · rw [if_pos h, List.getElem?_map, List.getElem?_eq_getElem h]
    rfl
  · rw [if_neg h, List.getElem?_map, List.getElem?_eq_none (by omega)]
    rfl

/-- Claim C7: the backbone's trainability follows the two-phase
lifecycle — after phase one every layer is frozen; after phase two a
layer is trainable exactly when its index is at least 249, so the first
249 layers are frozen and all remaining layers are trainable. -/
theorem claim_c7 (L : List Bool) (i : Nat) :
    (phase1Layers L)[i]? = (if i < L.length then some false else none) ∧
    (phase2Layers L)[i]? = (if i < L.length then some (decide (249 ≤ i)) else none) := by
  refine ⟨map_const_getElem false L i, ?_⟩
  unfold phase2Layers freezeFirst phase1Layers setAllTrainable
  set M := (L.map (fun _ => false)).map (fun _ => true) with hM
  have hMlen : M.length = L.length := by simp [hM]
  have hMget : ∀ k, M[k]? = if k < L.length then some true else none := by
    intro k
    have h := map_const_getElem true (L.map (fun _ => false)) k
    rwa [List.length_map] at h
  have hleft_len : ((M.take 249).map (fun _ => false)).length = min 249 L.length := by
    rw [List.length_map, List.length_take, hMlen]
  by_cases h1 : i < min 249 L.length
  · rw [List.getElem?_append, hleft_len, if_pos h1]
    have h := map_const_getElem false (M.take 249) i
    rw [List.length_take, hMlen] at h
    rw [h, if_pos h1, if_pos (by omega : i < L.length)]
    have hdec : decide (249 ≤ i) = false := by
      rw [decide_eq_false_iff_not]
      omega
    rw [hdec]
  · rw [List.getElem?_append, hleft_len, if_neg h1,
      List.getElem?_drop, hMget]
    by_cases h2 : i < L.length
    · have hmin : min 249 L.length = 249 := by omega
      rw [if_pos (by omega : 249 + (i - min 249 L.length) < L.length), if_pos h2]
      have hdec : decide (249 ≤ i) = true := by
        rw [decide_eq_true_eq]
        omega
      rw [hdec]
    · rw [if_neg (by omega), if_neg h2]

/-! ### Model assembly (cell 13) and class discovery (cell 8) -/

/-- Lexicographic comparison of character sequences by code point, as
Python's string ordering used by `sorted`. -/
def lexLe : List Char → List Char → Bool
  | [], _ => true
  | _ :: _, [] => false
  | a :: as, b :: bs =>
    if a.val < b.val then true
    else if b.val < a.val then false
    else lexLe as bs

/-- String order by code points. -/
def strLe (s t : String) : Bool :=
  lexLe s.data t.data

/-- Insert a name into an ascending list, keeping it sorted. -/
def insertSorted (x : String) : List String → List String
  | [] => [x]
  | y :: ys => if strLe x y then x :: y :: ys else y :: insertSorted x ys

/-- Ascending sort of a name list (Keras sorts discovered class
subdirectory names with Python's `sorted`). -/
def sortNames (l : List String) : List String :=
  l.foldr insertSorted []

/-- Keras `flow_from_directory` class discovery on a directory: the
sorted list of its subdirectory names.  `train_generator.class_indices`
maps these names to `0..k-1`, so its `len` is this list's length. -/
def classNames (fs : FS) (dir : FPath) : Option (List String) :=
  match fs.listdir dir with
  | none => none
  | some l => some (sortNames (l.filter (fun d => fs.isdir (dir ++ [d]))))

/-- Layer activations appearing in the notebook. -/
inductive Activation where
  | relu
  | softmax
deriving DecidableEq

/-- The layer kinds of the notebook's Sequential model. -/
inductive KLayer where
  | baseModel
  | globalAveragePooling2D
  | dense (units : Nat) (act : Activation)
  | batchNormalization
  | dropout (rate : ℚ)
deriving DecidableEq

/-- The Sequential model of cell 13:
`[base_model, GlobalAveragePooling2D, Dense(512, relu), BatchNormalization,
Dropout(0.5), Dense(256, relu), BatchNormalization, Dropout(0.5),
Dense(numClasses, softmax)]`. -/
def modelLayers (numClasses : Nat) : List KLayer :=
  [.baseModel, .globalAveragePooling2D, .dense 512 .relu, .batchNormalization,
   .dropout (mkRat 1 2), .dense 256 .relu, .batchNormalization,
   .dropout (mkRat 1 2), .dense numClasses .softmax]

def dotProd (w x : List ℚ) : ℚ :=
  (List.zipWith (fun a b => a * b) w x).sum

/-- Elementwise activations: `relu` clamps at zero; `softmax` is an
elementwise normalization of the vector (its exponentials live in ℝ and
belong to the external framework; what the repository relies on — and
what we model — is that it maps each unit's score to one probability,
preserving length). -/
def applyAct : Activation → List ℚ → List ℚ
  | .relu, x => x.map (fun a => max a 0)
  | .softmax, x => x.map (fun a => a / x.sum)

/-- A Dense layer with `units` output units: one affine functional per
unit (weights and biases abstract), then the activation. -/
def denseF (units : Nat) (act : Activation) (w : Nat → List ℚ) (b : Nat → ℚ)
    (x : List ℚ) : List ℚ :=
  applyAct act ((List.range units).map (fun j => dotProd (w j) x + b j))

/-- The framework-supplied pieces of the model, abstracted: the
InceptionV3 backbone, pooling, batch normalization and dropout
transformations, and per-position dense weights and biases. -/
structure KerasEnv where
  baseF : List ℚ → List ℚ
  gapF : List ℚ → List ℚ
  bnF : List ℚ → List ℚ
  dropF : ℚ → List ℚ → List ℚ
  w : Nat → Nat → List ℚ
  b : Nat → Nat → ℚ

/-- Interpretation of one layer at position `pos` of the Sequential
model. -/
def layerSem (env : KerasEnv) (pos : Nat) : KLayer → List ℚ → List ℚ
  | .baseModel, x => env.baseF x
  | .globalAveragePooling2D, x => env.gapF x
  | .dense units act, x => denseF units act (env.w pos) (env.b pos) x
  | .batchNormalization, x => env.bnF x
  | .dropout r, x => env.dropF r x

/-- Run the Sequential model from layer position `pos`. -/
def forwardFrom (env : KerasEnv) (pos : Nat) : List KLayer → List ℚ → List ℚ
  | [], x => x
  | l :: ls, x => forwardFrom env (pos + 1) ls (layerSem env pos l x)

/-- The model's forward pass. -/
def modelForward (env : KerasEnv) (layers : List KLayer) (x : List ℚ) : List ℚ :=
  forwardFrom env 0 layers x

/-- Claim C8: with `cs` the classes discovered in the training
directory, the model's final layer is `Dense(len(class_indices))` with
softmax, and the forward pass emits exactly one value (probability) per
class for every input. -/
theorem claim_c8 (env : KerasEnv) (fs : FS) (dir : FPath) (cs : List String)
    (hclasses : classNames fs dir = some cs) :
    (modelLayers cs.length).getLast? = some (.dense cs.length .softmax) ∧
    ∀ x : List ℚ, (modelForward env (modelLayers cs.length) x).length = cs.length := by
  refine ⟨rfl, ?_⟩
  intro x
  simp [modelForward, forwardFrom, modelLayers, layerSem, denseF, applyAct]

/-- A concrete training directory with the four disease class
subdirectories. -/
def fourClassFS : FS :=
  { files := [],
    dirs := [["train"], ["train", "flea_allergy"], ["train", "hotspot"],
             ["train", "mange"], ["train", "ringworm"]] }

/-- A trivial instantiation of the framework-supplied pieces. -/
def trivEnv : KerasEnv :=
  { baseF := fun x => x, gapF := fun x => x, bnF := fun x => x,
    dropF := fun _ x => x, w := fun _ _ => [], b := fun _ _ => 0 }

/-- Claim C8 witness: on the four-class training directory the final
layer is `Dense(4, softmax)` and a forward pass emits 4 values. -/
theorem claim_c8_witness :
    (modelLayers (["flea_allergy", "hotspot", "mange", "ringworm"] : List String).length).getLast? =
      some (.dense (["flea_allergy", "hotspot", "mange", "ringworm"] : List String).length .softmax) ∧
    (modelForward trivEnv
      (modelLayers (["flea_allergy", "hotspot", "mange", "ringworm"] : List String).length)
      [1, 2]).length = (["flea_allergy", "hotspot", "mange", "ringworm"] : List String).length :=
  ⟨(claim_c8 trivEnv fourClassFS ["train"] ["flea_allergy", "hotspot", "mange", "ringworm"]
      (by decide)).1,
   (claim_c8 trivEnv fourClassFS ["train"] ["flea_allergy", "hotspot", "mange", "ringworm"]
      (by decide)).2 [1, 2]⟩

/-! ### Initial-segment arithmetic on paths -/

theorem seg_iff (a b : FPath) : seg a b ↔ ∃ r, b = a ++ r := by
  constructor
  · intro h
    refine ⟨b.drop a.length, ?_⟩
    conv_lhs => rw [← List.take_append_drop a.length b]
    rw [h]
  · rintro ⟨r, rfl⟩
    exact List.take_left a r

theorem seg_refl (a : FPath) : seg a a :=
  List.take_length a

theorem seg_trans {a b c : FPath} (h1 : seg a b) (h2 : seg b c) : seg a c := by
  rcases (seg_iff a b).1 h1 with ⟨r, rfl⟩
  rcases (seg_iff _ c).1 h2 with ⟨r2, rfl⟩
  exact (seg_iff _ _).2 ⟨r ++ r2, by rw [List.append_assoc]⟩

theorem seg_append_self (a : FPath) (r : List String) : seg a (a ++ r) :=
  (seg_iff _ _).2 ⟨r, rfl⟩

theorem seg_len_le {a b : FPath} (h : seg a b) : a.length ≤ b.length := by
  have hl := congrArg List.length h
  rw [List.length_take] at hl
  omega

/-- Master case analysis: an initial segment of `t ++ r` is comparable
with `t`. -/
theorem seg_append_cases (s t : FPath) (r : List String) (h : seg s (t ++ r)) :
    seg s t ∨ seg t s := by
  by_cases hl : s.length ≤ t.length
  · left
    unfold seg at h ⊢
    rw [List.take_append_of_le_length hl] at h
    exact h
  · right
    unfold seg at h ⊢
    rw [← h, List.take_take, min_eq_left (by omega), List.take_left]

/-- Separated roots have separated subtrees: no path inside `s` is an
initial segment of a path inside `t`. -/
theorem not_seg_append_of_sep {s t : FPath} (hsep : pathSep s t) (r r' : List String) :
    ¬ seg (s ++ r) (t ++ r') := by
  intro h
  rcases seg_append_cases _ _ _ h with h1 | h1
  · exact hsep.1 (seg_trans (seg_append_self s r) h1)
  · rcases seg_append_cases t s r h1 with h2 | h2
    · exact hsep.2 h2
    · exact hsep.1 h2

theorem ne_append_of_sep {s t : FPath} (hsep : pathSep s t) (r r' : List String) :
    s ++ r ≠ t ++ r' := by
  intro h
  exact not_seg_append_of_sep hsep r r' (h ▸ seg_refl (s ++ r))

theorem append_pair_inj {a b : FPath} {x y x2 y2 : String}
    (h : a ++ [x, y] = b ++ [x2, y2]) : a = b ∧ x = x2 ∧ y = y2 := by
  have hlen : a.length = b.length := by
    have hl := congrArg List.length h
    simp only [List.length_append, List.length_cons, List.length_nil] at hl
    omega
  have hab : a = b := by
    have h1 := congrArg (List.take a.length) h
    rw [List.take_left] at h1
    rw [hlen, List.take_left] at h1
    exact h1
  subst hab
  simp only [List.append_cancel_left_eq, List.cons.injEq, and_true] at h
  exact ⟨rfl, h⟩

theorem mem_dirChain {q : FPath} {p : FPath} : q ∈ dirChain p ↔ seg q p := by
  unfold dirChain
  rw [List.mem_map]
  constructor
  · rintro ⟨k, hk, rfl⟩
    rw [List.mem_range] at hk
    unfold seg
    rw [List.length_take]
    congr 1
    omega
  · intro h
    refine ⟨q.length, ?_, h⟩
    rw [List.mem_range]
    have := seg_len_le h
    omega

/-! ### Basic filesystem-operation lemmas -/

theorem read_write_self (fs : FS) (p : FPath) (c : Content) :
    (fs.write p c).read p = some c := by
  unfold FS.write FS.read
  rw [List.find?_cons_of_pos _ (by simp)]

theorem read_write_ne (fs : FS) (p q : FPath) (c : Content) (h : q ≠ p) :
    (fs.write p c).read q = fs.read q := by
  unfold FS.write FS.read
  rw [List.find?_cons_of_neg _ (by simpa using fun hh : p = q => h hh.symm)]

theorem write_dirs (fs : FS) (p : FPath) (c : Content) : (fs.write p c).dirs = fs.dirs := rfl

theorem write_keys (fs : FS) (p : FPath) (c : Content) :
    (fs.write p c).files.map Prod.fst = p :: fs.files.map Prod.fst := rfl

theorem makedirs_read (fs : FS) (p q : FPath) : (fs.makedirs p).read q = fs.read q := rfl

theorem makedirs_files (fs : FS) (p : FPath) : (fs.makedirs p).files = fs.files := rfl

theorem makedirs_dirs (fs : FS) (p : FPath) : (fs.makedirs p).dirs = fs.dirs ++ dirChain p := rfl

theorem isdir_iff (fs : FS) (p : FPath) : fs.isdir p = true ↔ p ∈ fs.dirs := by
  simp [FS.isdir]

theorem listdir_of_isdir (fs : FS) (p : FPath) (h : fs.isdir p = true) :
    fs.listdir p = some (childNames (fs.dirs ++ fs.files.map Prod.fst) p) := by
  unfold FS.listdir
  rw [if_pos ((isdir_iff fs p).1 h)]

theorem listdir_of_not_dir (fs : FS) (p : FPath) (h : p ∉ fs.dirs) :
    fs.listdir p = none := by
  unfold FS.listdir
  rw [if_neg h]

/-! ### The duplicate-free accumulator -/

theorem mem_foldl_addNew (l : List String) (acc : List String) (x : String) :
    x ∈ l.foldl addNew acc ↔ x ∈ acc ∨ x ∈ l := by
  induction l generalizing acc with
  | nil => simp
  | cons y ys ih =>
    rw [List.foldl_cons, ih]
    unfold addNew
    by_cases hy : y ∈ acc
    · rw [if_pos hy]
      simp only [List.mem_cons]
      constructor
      · rintro (h | h)
        · exact Or.inl h
        · exact Or.inr (Or.inr h)
      · rintro (h | rfl | h)
        · exact Or.inl h
        · exact Or.inl hy
        · exact Or.inr h
    · rw [if_neg hy]
      simp only [List.mem_append, List.mem_singleton, List.mem_cons]
      tauto

theorem foldl_addNew_eq_self (l acc : List String) (h : (acc ++ l).Nodup) :
    l.foldl addNew acc = acc ++ l := by
  induction l generalizing acc with
  | nil => simp
  | cons y ys ih =>
    rw [List.foldl_cons]
    have hy : y ∉ acc := by
      intro hc
      rw [List.nodup_append] at h
      exact h.2.2 hc (List.mem_cons_self y ys)
    have ha : addNew acc y = acc ++ [y] := by
      unfold addNew
      rw [if_neg hy]
    rw [ha, ih (acc ++ [y]) (by rwa [List.append_assoc]), List.append_assoc]
    rfl

theorem foldl_addNew_no_new (l acc : List String) (h : ∀ x ∈ l, x ∈ acc) :
    l.foldl addNew acc = acc := by
  induction l with
  | nil => rfl
  | cons y ys ih =>
    rw [List.foldl_cons]
    unfold addNew
    rw [if_pos (h y (List.mem_cons_self y ys))]
    exact ih (fun x hx => h x (List.mem_cons_of_mem y hx))

theorem nodup_foldl_addNew (l acc : List String) (h : acc.Nodup) :
    (l.foldl addNew acc).Nodup := by
  induction l generalizing acc with
  | nil => exact h
  | cons y ys ih =>
    rw [List.foldl_cons]
    refine ih _ ?_
    unfold addNew
    by_cases hy : y ∈ acc
    · rwa [if_pos hy]
    · rw [if_neg hy]
      simp [List.nodup_append, h, hy]

theorem childNames_nodup (paths : List FPath) (p : FPath) : (childNames paths p).Nodup :=
  nodup_foldl_addNew _ _ List.nodup_nil

theorem mem_childNames (paths : List FPath) (p : FPath) (x : String) :
    x ∈ childNames paths p ↔ ∃ q ∈ paths, childOf p q = some x := by
  unfold childNames
  rw [mem_foldl_addNew]
  simp [List.mem_filterMap]

/-! ### Computing `childOf` -/

theorem childOf_none_iff (p q : FPath) :
    childOf p q = none ↔ ¬ (seg p q ∧ p.length < q.length) := by
  unfold childOf
  by_cases h : seg p q ∧ p.length < q.length
  · rw [if_pos h, List.get?_eq_get h.2]
    simp [h]
  · rw [if_neg h]
    simp [h]

theorem childOf_of_append (p : FPath) (x : String) (r : List String) :
    childOf p (p ++ x :: r) = some x := by
  unfold childOf
  rw [if_pos ⟨seg_append_self p (x :: r), by simp⟩]
  rw [List.get?_append_right (le_refl p.length)]
  simp

theorem childOf_short (p q : FPath) (h : q.length ≤ p.length) : childOf p q = none :=
  (childOf_none_iff p q).2 (fun hc => by omega)

theorem childOf_none_of_sep {s t : FPath} (hsep : pathSep s t) (r r' : List String) :
    childOf (s ++ r) (t ++ r') = none :=
  (childOf_none_iff _ _).2 (fun hc => not_seg_append_of_sep hsep r r' hc.1)

theorem childOf_none_of_chain_sep {t v : FPath} (hsep : pathSep t v) (r r' : List String)
    {q : FPath} (hq : seg q (v ++ r')) : childOf (t ++ r) q = none :=
  (childOf_none_iff _ _).2 (fun hc => not_seg_append_of_sep hsep r r' (seg_trans hc.1 hq))

/-! ### Spec-side recomputation of what `split_data` does per class -/

/-- The names `os.listdir(source_dir)` yields. -/
def sourceNames (fs : FS) (s : FPath) : List String :=
  childNames (fs.dirs ++ fs.files.map Prod.fst) s

/-- The names `os.listdir(class_dir)` yields for class `name`. -/
def classEntries (fs : FS) (s : FPath) (name : String) : List String :=
  childNames (fs.dirs ++ fs.files.map Prod.fst) (s ++ [name])

/-- The image files `split_data` selects in class `name`:
the listing filtered by extension. -/
def classImages (fs : FS) (s : FPath) (name : String) : List String :=
  (classEntries fs s name).filter extOk

/-- The (train, validation) filename pair the seeded splitter assigns
to class `name` (and `([], [])` when the splitter raises — the run
errors out in that case, so the value is never used). -/
def classTrVa (rng : Nat → List Nat) (fs : FS) (s : FPath) (rat : ℚ) (name : String) :
    List String × List String :=
  match splitSets rng (classImages fs s name) rat with
  | .ok z => z
  | .error _ => ([], [])

/-- The number of copy operations a run of `split_data` performs into
the train tree: one per train-assigned image of each class
subdirectory. -/
def trainCopyCount (rng : Nat → List Nat) (fs : FS) (s : FPath) (rat : ℚ) : Nat :=
  (((sourceNames fs s).filter (fun c => fs.isdir (s ++ [c]))).map
    (fun c => (classTrVa rng fs s rat c).1.length)).sum

/-- The number of copy operations a run of `split_data` performs into
the validation tree. -/
def valCopyCount (rng : Nat → List Nat) (fs : FS) (s : FPath) (rat : ℚ) : Nat :=
  (((sourceNames fs s).filter (fun c => fs.isdir (s ++ [c]))).map
    (fun c => (classTrVa rng fs s rat c).2.length)).sum

/-! ### Effect of the copy loop -/

theorem copy_ok (fs : FS) (src dst : FPath) (fs1 : FS)
    (h : fs.copy src dst = .ok fs1) :
    ∃ c, fs.read src = some c ∧ fs1 = fs.write dst c := by
  unfold FS.copy at h
  cases hr : fs.read src with
  | none => rw [hr] at h; simp at h
  | some c =>
    rw [hr] at h
    exact ⟨c, rfl, (Except.ok.inj h).symm⟩

theorem copyAll_cons_ok (srcD dstD : FPath) (i : String) (rest : List String)
    (fs fs1 : FS) (h : copyAll srcD dstD (i :: rest) fs = .ok fs1) :
    ∃ c, fs.read (srcD ++ [i]) = some c ∧
      copyAll srcD dstD rest (fs.write (dstD ++ [i]) c) = .ok fs1 := by
  unfold copyAll at h
  cases hc : fs.copy (srcD ++ [i]) (dstD ++ [i]) with
  | error e => rw [hc] at h; simp at h
  | ok fsw =>
    rw [hc] at h
    obtain ⟨c, hr, rfl⟩ := copy_ok _ _ _ _ hc
    exact ⟨c, hr, h⟩

theorem copyAll_dirs (srcD dstD : FPath) (imgs : List String) (fs fs1 : FS)
    (h : copyAll srcD dstD imgs fs = .ok fs1) : fs1.dirs = fs.dirs := by
  induction imgs generalizing fs with
  | nil =>
    unfold copyAll at h
    obtain rfl := Except.ok.inj h
    rfl
  | cons i rest ih =>
    obtain ⟨c, hr, hrest⟩ := copyAll_cons_ok _ _ _ _ _ _ h
    rw [ih _ hrest]
    rfl

theorem copyAll_keys (srcD dstD : FPath) (imgs : List String) (fs fs1 : FS)
    (h : copyAll srcD dstD imgs fs = .ok fs1) :
    fs1.files.map Prod.fst =
      (imgs.map (fun i => dstD ++ [i])).reverse ++ fs.files.map Prod.fst := by
  induction imgs generalizing fs with
  | nil =>
    unfold copyAll at h
    obtain rfl := Except.ok.inj h
    simp
  | cons i rest ih =>
    obtain ⟨c, hr, hrest⟩ := copyAll_cons_ok _ _ _ _ _ _ h
    rw [ih _ hrest, write_keys]
    simp [List.append_assoc]

theorem copyAll_read_frame (srcD dstD : FPath) (imgs : List String) (fs fs1 : FS)
    (h : copyAll srcD dstD imgs fs = .ok fs1) (p : FPath)
    (hp : ∀ i ∈ imgs, p ≠ dstD ++ [i]) : fs1.read p = fs.read p := by
  induction imgs generalizing fs with
  | nil =>
    unfold copyAll at h
    obtain rfl := Except.ok.inj h
    rfl
  | cons i rest ih =>
    obtain ⟨c, hr, hrest⟩ := copyAll_cons_ok _ _ _ _ _ _ h
    rw [ih _ hrest (fun j hj => hp j (List.mem_cons_of_mem i hj))]
    exact read_write_ne _ _ _ _ (hp i (List.mem_cons_self i rest))

theorem copyAll_read_dest (srcD dstD : FPath) (imgs : List String)
    (hsep : ∀ i j : String, srcD ++ [i] ≠ dstD ++ [j]) :
    ∀ fs fs1 : FS, imgs.Nodup → copyAll srcD dstD imgs fs = .ok fs1 →
      ∀ i ∈ imgs, fs1.read (dstD ++ [i]) = fs.read (srcD ++ [i]) := by
  induction imgs with
  | nil => intro fs fs1 _ _ i hi; simp at hi
  | cons i0 rest ih =>
    intro fs fs1 hnd h i hi
    obtain ⟨c, hr, hrest⟩ := copyAll_cons_ok _ _ _ _ _ _ h
    rcases List.mem_cons.1 hi with rfl | hi'
    · have hfr : ∀ j ∈ rest, dstD ++ [i] ≠ dstD ++ [j] := by
        intro j hj hc
        have hij : i = j := by simpa using List.append_cancel_left hc
        exact (List.nodup_cons.1 hnd).1 (hij ▸ hj)
      rw [copyAll_read_frame _ _ _ _ _ hrest _ hfr, read_write_self, hr]
    · rw [ih _ _ (List.nodup_cons.1 hnd).2 hrest i hi']
      exact read_write_ne _ _ _ _ (hsep i i0)

theorem copyAll_ok_reads (srcD dstD : FPath) (imgs : List String) (fs fs1 : FS)
    (hsep : ∀ i j : String, srcD ++ [i] ≠ dstD ++ [j])
    (h : copyAll srcD dstD imgs fs = .ok fs1) :
    ∀ i ∈ imgs, (fs.read (srcD ++ [i])).isSome = true := by
  induction imgs generalizing fs with
  | nil => intro i hi; simp at hi
  | cons i0 rest ih =>
    obtain ⟨c, hr, hrest⟩ := copyAll_cons_ok _ _ _ _ _ _ h
    intro i hi
    rcases List.mem_cons.1 hi with rfl | hi'
    · rw [hr]; rfl
    · have := ih _ hrest i hi'
      rwa [read_write_ne _ _ _ _ (hsep i i0)] at this

/-! ### Facts about the per-class split sets -/

theorem splitSets_sub (rng : Nat → List Nat) (images : List String) (rat : ℚ)
    (tr va : List String) (hrun : splitSets rng images rat = .ok (tr, va)) :
    (∀ x ∈ tr, x ∈ images) ∧ ∀ x ∈ va, x ∈ images := by
  obtain ⟨-, htr, hva⟩ := tts_ok _ _ _ _ _ hrun
  exact ⟨fun x hx => mem_of_mem_filterMap_get _ _ _ (htr ▸ hx),
         fun x hx => mem_of_mem_filterMap_get _ _ _ (hva ▸ hx)⟩

theorem splitSets_nodup (rng : Nat → List Nat) (images : List String) (rat : ℚ)
    (tr va : List String)
    (hp : (rng images.length).Perm (List.range images.length))
    (hnd : images.Nodup)
    (hrun : splitSets rng images rat = .ok (tr, va)) : tr.Nodup ∧ va.Nodup := by
  obtain ⟨-, htr, hva⟩ := tts_ok _ _ _ _ _ hrun
  have hpn : (rng images.length).Nodup := hp.nodup_iff.2 (List.nodup_range _)
  have key : ∀ idx : List Nat, idx.Nodup →
      (idx.filterMap (fun i => images.get? i)).Nodup := by
    intro idx hidx
    refine List.Nodup.filterMap ?_ hidx
    intro a a' b hb hb'
    have hb2 : images.get? a = some b := hb
    have hb2' : images.get? a' = some b := hb'
    have ha : a < images.length := (List.get?_eq_some.1 hb2).1
    exact List.get?_inj ha hnd (hb2.trans hb2'.symm)
  constructor
  · rw [htr]
    refine key _ ?_
    have hsub : (((rng images.length).drop (nTestOf images.length rat)).take
        (images.length - nTestOf images.length rat)).Sublist (rng images.length) :=
      (List.take_sublist _ _).trans (List.drop_sublist _ _)
    exact hsub.nodup hpn
  · rw [hva]
    exact key _ ((List.take_sublist _ _).nodup hpn)

/-! ### Effect of processing one class directory -/

theorem processClass_not_dir (rng : Nat → List Nat) (s t v : FPath) (rat : ℚ)
    (fs : FS) (name : String) (h : fs.isdir (s ++ [name]) = false) :
    processClass rng s t v rat fs name = .ok fs := by
  unfold processClass
  rw [if_neg (by simp [h])]

theorem processClass_dir_eq (rng : Nat → List Nat) (s t v : FPath) (rat : ℚ)
    (fs : FS) (name : String) (h : fs.isdir (s ++ [name]) = true) :
    processClass rng s t v rat fs name =
      match splitSets rng (classImages fs s name) rat with
      | .error e => .error e
      | .ok (tr, va) =>
        match copyAll (s ++ [name]) (t ++ [name]) tr
            ((fs.makedirs (t ++ [name])).makedirs (v ++ [name])) with
        | .error e => .error e
        | .ok fs2 => copyAll (s ++ [name]) (v ++ [name]) va fs2 := by
  unfold processClass
  rw [if_pos h, listdir_of_isdir _ _ h]
  rfl

theorem processClass_ok_cases (rng : Nat → List Nat) (s t v : FPath) (rat : ℚ)
    (fs : FS) (name : String) (fsF : FS)
    (hok : processClass rng s t v rat fs name = .ok fsF) :
    (fs.isdir (s ++ [name]) = false ∧ fsF = fs) ∨
    (fs.isdir (s ++ [name]) = true ∧
      ∃ fs2,
        splitSets rng (classImages fs s name) rat =
          .ok (classTrVa rng fs s rat name) ∧
        copyAll (s ++ [name]) (t ++ [name]) (classTrVa rng fs s rat name).1
          ((fs.makedirs (t ++ [name])).makedirs (v ++ [name])) = .ok fs2 ∧
        copyAll (s ++ [name]) (v ++ [name]) (classTrVa rng fs s rat name).2 fs2 = .ok fsF) := by
  cases hd : fs.isdir (s ++ [name]) with
  | false =>
    rw [processClass_not_dir _ _ _ _ _ _ _ hd] at hok
    exact Or.inl ⟨rfl, (Except.ok.inj hok).symm⟩
  | true =>
    rw [processClass_dir_eq _ _ _ _ _ _ _ hd] at hok
    refine Or.inr ⟨rfl, ?_⟩
    cases hsp : splitSets rng (classImages fs s name) rat with
    | error e =>
      rw [hsp] at hok
      exact absurd hok (by simp)
    | ok z =>
      obtain ⟨tr, va⟩ := z
      have htv : classTrVa rng fs s rat name = (tr, va) := by
        unfold classTrVa
        rw [hsp]
      rw [hsp] at hok
      have hok2 : (match copyAll (s ++ [name]) (t ++ [name]) tr
            ((fs.makedirs (t ++ [name])).makedirs (v ++ [name])) with
          | Except.error e => Except.error e
          | Except.ok fs2 => copyAll (s ++ [name]) (v ++ [name]) va fs2) = .ok fsF := hok
      cases hc1 : copyAll (s ++ [name]) (t ++ [name]) tr
          ((fs.makedirs (t ++ [name])).makedirs (v ++ [name])) with
      | error e =>
        rw [hc1] at hok2
        exact absurd hok2 (by simp)
      | ok fs2 =>
        rw [hc1] at hok2
        refine ⟨fs2, ?_, ?_, ?_⟩
        · rw [htv]
        · rw [htv]
          exact hc1
        · rw [htv]
          exact hok2

theorem processClass_state (rng : Nat → List Nat) (s t v : FPath) (rat : ℚ)
    (fs : FS) (name : String) (fsF : FS)
    (hok : processClass rng s t v rat fs name = .ok fsF)
    (hd : fs.isdir (s ++ [name]) = true) :
    fsF.dirs = fs.dirs ++ (dirChain (t ++ [name]) ++ dirChain (v ++ [name])) ∧
    fsF.files.map Prod.fst =
      ((classTrVa rng fs s rat name).1.map (fun i => (t ++ [name]) ++ [i]) ++
       (classTrVa rng fs s rat name).2.map (fun i => (v ++ [name]) ++ [i])).reverse ++
        fs.files.map Prod.fst := by
  rcases processClass_ok_cases _ _ _ _ _ _ _ _ hok with ⟨hd2, -⟩ | ⟨-, fs2, -, hc1, hc2⟩
  · rw [hd] at hd2; cases hd2
  · constructor
    · rw [copyAll_dirs _ _ _ _ _ hc2, copyAll_dirs _ _ _ _ _ hc1,
        makedirs_dirs, makedirs_dirs, List.append_assoc]
    · rw [copyAll_keys _ _ _ _ _ hc2, copyAll_keys _ _ _ _ _ hc1]
      have hmf : ((fs.makedirs (t ++ [name])).makedirs (v ++ [name])).files = fs.files := rfl
      rw [hmf, List.reverse_append, List.append_assoc]

theorem processClass_read_frame (rng : Nat → List Nat) (s t v : FPath) (rat : ℚ)
    (fs : FS) (name : String) (fsF : FS)
    (hok : processClass rng s t v rat fs name = .ok fsF) (p : FPath)
    (hpt : ∀ i : String, p ≠ (t ++ [name]) ++ [i])
    (hpv : ∀ i : String, p ≠ (v ++ [name]) ++ [i]) :
    fsF.read p = fs.read p := by
  rcases processClass_ok_cases _ _ _ _ _ _ _ _ hok with ⟨-, rfl⟩ | ⟨-, fs2, -, hc1, hc2⟩
  · rfl
  · rw [copyAll_read_frame _ _ _ _ _ hc2 _ (fun i _ => hpv i),
      copyAll_read_frame _ _ _ _ _ hc1 _ (fun i _ => hpt i)]
    rfl

theorem processClass_read_dest (rng : Nat → List Nat) (s t v : FPath) (rat : ℚ)
    (fs : FS) (name : String) (fsF : FS)
    (hsepST : pathSep s t) (hsepSV : pathSep s v) (hsepTV : pathSep t v)
    (hp : ∀ n : Nat, (rng n).Perm (List.range n))
    (hok : processClass rng s t v rat fs name = .ok fsF)
    (hd : fs.isdir (s ++ [name]) = true) :
    (∀ i ∈ (classTrVa rng fs s rat name).1,
      fsF.read ((t ++ [name]) ++ [i]) = fs.read ((s ++ [name]) ++ [i])) ∧
    (∀ i ∈ (classTrVa rng fs s rat name).2,
      fsF.read ((v ++ [name]) ++ [i]) = fs.read ((s ++ [name]) ++ [i])) := by
  rcases processClass_ok_cases _ _ _ _ _ _ _ _ hok with ⟨hd2, -⟩ | ⟨-, fs2, hsp, hc1, hc2⟩
  · rw [hd] at hd2; cases hd2
  · have hndimg : (classImages fs s name).Nodup :=
      (childNames_nodup _ _).filter _
    obtain ⟨hndtr, hndva⟩ := splitSets_nodup _ _ _ _ _ (hp _) hndimg hsp
    have hsepcall1 : ∀ i j : String, (s ++ [name]) ++ [i] ≠ (t ++ [name]) ++ [j] := by
      intro i j
      rw [List.append_assoc, List.append_assoc]
      exact ne_append_of_sep hsepST _ _
    have hsepcall2 : ∀ i j : String, (s ++ [name]) ++ [i] ≠ (v ++ [name]) ++ [j] := by
      intro i j
      rw [List.append_assoc, List.append_assoc]
      exact ne_append_of_sep hsepSV _ _
    have hsepcall3 : ∀ i j : String, (t ++ [name]) ++ [i] ≠ (v ++ [name]) ++ [j] := by
      intro i j
      rw [List.append_assoc, List.append_assoc]
      exact ne_append_of_sep hsepTV _ _
    constructor
    · intro i hi
      have h1 := copyAll_read_dest _ _ _ hsepcall1 _ _ hndtr hc1 i hi
      have h2 := copyAll_read_frame _ _ _ _ _ hc2 ((t ++ [name]) ++ [i])
        (fun j _ => hsepcall3 i j)
      rw [h2, h1]
      rfl
    · intro i hi
      have h1 := copyAll_read_dest _ _ _ hsepcall2 _ _ hndva hc2 i hi
      have h2 := copyAll_read_frame _ _ _ _ _ hc1 ((s ++ [name]) ++ [i])
        (fun j _ => hsepcall1 i j)
      rw [h1, h2]
      rfl

/-! ### Effect of the whole class loop -/

theorem processAll_cons_ok (rng : Nat → List Nat) (s t v : FPath) (rat : ℚ)
    (n : String) (rest : List String) (fs fsF : FS)
    (h : processAll rng s t v rat (n :: rest) fs = .ok fsF) :
    ∃ fs1, processClass rng s t v rat fs n = .ok fs1 ∧
      processAll rng s t v rat rest fs1 = .ok fsF := by
  unfold processAll at h
  cases hc : processClass rng s t v rat fs n with
  | error e => rw [hc] at h; simp at h
  | ok fs1 => rw [hc] at h; exact ⟨fs1, rfl, h⟩

theorem processAll_read_frame (rng : Nat → List Nat) (s t v : FPath) (rat : ℚ)
    (names : List String) :
    ∀ fs fsF : FS, processAll rng s t v rat names fs = .ok fsF →
    ∀ p : FPath,
      (∀ c ∈ names, ∀ i : String, p ≠ (t ++ [c]) ++ [i]) →
      (∀ c ∈ names, ∀ i : String, p ≠ (v ++ [c]) ++ [i]) →
      fsF.read p = fs.read p := by
  induction names with
  | nil =>
    intro fs fsF h p _ _
    unfold processAll at h
    obtain rfl := Except.ok.inj h
    rfl
  | cons c rest ih =>
    intro fs fsF h p hpt hpv
    obtain ⟨fs1, hc, hrest⟩ := processAll_cons_ok _ _ _ _ _ _ _ _ _ h
    rw [ih _ _ hrest p (fun c' h' i => hpt c' (List.mem_cons_of_mem c h') i)
      (fun c' h' i => hpv c' (List.mem_cons_of_mem c h') i)]
    exact processClass_read_frame _ _ _ _ _ _ _ _ hc p
      (fun i => hpt c (List.mem_cons_self c rest) i)
      (fun i => hpv c (List.mem_cons_self c rest) i)

theorem childNames_split_none (A X Y B : List FPath) (p : FPath)
    (hX : ∀ q ∈ X, childOf p q = none) (hY : ∀ q ∈ Y, childOf p q = none) :
    childNames ((A ++ X) ++ (Y ++ B)) p = childNames (A ++ B) p := by
  unfold childNames
  rw [List.filterMap_append, List.filterMap_append, List.filterMap_append,
    List.filterMap_eq_nil.2 hX, List.filterMap_eq_nil.2 hY]
  simp

theorem processClass_isdir_inv (rng : Nat → List Nat) (s t v : FPath) (rat : ℚ)
    (fs : FS) (name : String) (fs1 : FS)
    (hsepST : pathSep s t) (hsepSV : pathSep s v)
    (hok : processClass rng s t v rat fs name = .ok fs1) (r : List String) :
    fs1.isdir (s ++ r) = fs.isdir (s ++ r) := by
  rcases processClass_ok_cases _ _ _ _ _ _ _ _ hok with ⟨-, rfl⟩ | ⟨hd, -, -, -, -⟩
  · rfl
  · have hdirs := (processClass_state _ _ _ _ _ _ _ _ hok hd).1
    unfold FS.isdir
    rw [hdirs, decide_eq_decide, List.mem_append]
    constructor
    · rintro (h | h)
      · exact h
      · exfalso
        rcases List.mem_append.1 h with h | h
        · exact not_seg_append_of_sep hsepST r [name] (mem_dirChain.1 h)
        · exact not_seg_append_of_sep hsepSV r [name] (mem_dirChain.1 h)
    · exact Or.inl

theorem processClass_entries_inv (rng : Nat → List Nat) (s t v : FPath) (rat : ℚ)
    (fs : FS) (name : String) (fs1 : FS)
    (hsepST : pathSep s t) (hsepSV : pathSep s v)
    (hok : processClass rng s t v rat fs name = .ok fs1) (c' : String) :
    classEntries fs1 s c' = classEntries fs s c' := by
  rcases processClass_ok_cases _ _ _ _ _ _ _ _ hok with ⟨-, rfl⟩ | ⟨hd, -, -, -, -⟩
  · rfl
  · obtain ⟨hdirs, hkeys⟩ := processClass_state _ _ _ _ _ _ _ _ hok hd
    unfold classEntries
    rw [hdirs, hkeys]
    apply childNames_split_none
    · intro q hq
      rcases List.mem_append.1 hq with hq | hq
      · exact childOf_none_of_chain_sep hsepST [c'] [name] (mem_dirChain.1 hq)
      · exact childOf_none_of_chain_sep hsepSV [c'] [name] (mem_dirChain.1 hq)
    · intro q hq
      rw [List.mem_reverse] at hq
      rcases List.mem_append.1 hq with hq | hq <;> rcases List.mem_map.1 hq with ⟨i, -, rfl⟩
      · rw [List.append_assoc]
        exact childOf_none_of_sep hsepST [c'] ([name] ++ [i])
      · rw [List.append_assoc]
        exact childOf_none_of_sep hsepSV [c'] ([name] ++ [i])

theorem processClass_classImages_inv (rng : Nat → List Nat) (s t v : FPath) (rat : ℚ)
    (fs : FS) (name : String) (fs1 : FS)
    (hsepST : pathSep s t) (hsepSV : pathSep s v)
    (hok : processClass rng s t v rat fs name = .ok fs1) (c' : String) :
    classImages fs1 s c' = classImages fs s c' := by
  unfold classImages
  rw [processClass_entries_inv _ _ _ _ _ _ _ _ hsepST hsepSV hok c']

theorem processClass_classTrVa_inv (rng : Nat → List Nat) (s t v : FPath) (rat : ℚ)
    (fs : FS) (name : String) (fs1 : FS)
    (hsepST : pathSep s t) (hsepSV : pathSep s v)
    (hok : processClass rng s t v rat fs name = .ok fs1) (c' : String) :
    classTrVa rng fs1 s rat c' = classTrVa rng fs s rat c' := by
  unfold classTrVa
  rw [processClass_classImages_inv _ _ _ _ _ _ _ _ hsepST hsepSV hok c']

theorem flatMap_congr_mem {α β : Type} (l : List α) (f g : α → List β)
    (h : ∀ a ∈ l, f a = g a) : l.flatMap f = l.flatMap g := by
  induction l with
  | nil => rfl
  | cons a as ih =>
    rw [List.flatMap_cons, List.flatMap_cons, h a (List.mem_cons_self a as),
      ih (fun a' ha' => h a' (List.mem_cons_of_mem a ha'))]

/-- Exact characterization of a successful run of the class loop: the
directories gained are the `makedirs` chains of each destination class
directory, and the file paths gained are exactly the copied train and
validation destinations, class by class. -/
theorem processAll_state (rng : Nat → List Nat) (s t v : FPath) (rat : ℚ)
    (hsepST : pathSep s t) (hsepSV : pathSep s v) :
    ∀ (names : List String) (fs fsF : FS),
      processAll rng s t v rat names fs = .ok fsF →
      fsF.dirs = fs.dirs ++
        ((names.filter (fun c => fs.isdir (s ++ [c]))).flatMap
          (fun c => dirChain (t ++ [c]) ++ dirChain (v ++ [c]))) ∧
      fsF.files.map Prod.fst =
        ((names.filter (fun c => fs.isdir (s ++ [c]))).flatMap
          (fun c => (classTrVa rng fs s rat c).1.map (fun i => (t ++ [c]) ++ [i]) ++
            (classTrVa rng fs s rat c).2.map (fun i => (v ++ [c]) ++ [i]))).reverse ++
          fs.files.map Prod.fst := by
  intro names
  induction names with
  | nil =>
    intro fs fsF h
    unfold processAll at h
    obtain rfl := Except.ok.inj h
    simp
  | cons c rest ih =>
    intro fs fsF h
    obtain ⟨fs1, hc, hrest⟩ := processAll_cons_ok _ _ _ _ _ _ _ _ _ h
    obtain ⟨ihd, ihk⟩ := ih fs1 fsF hrest
    have hfil : rest.filter (fun c' => fs1.isdir (s ++ [c'])) =
        rest.filter (fun c' => fs.isdir (s ++ [c'])) :=
      List.filter_congr
        (fun a _ => processClass_isdir_inv _ _ _ _ _ _ _ _ hsepST hsepSV hc [a])
    have htv : ∀ c', classTrVa rng fs1 s rat c' = classTrVa rng fs s rat c' :=
      fun c' => processClass_classTrVa_inv _ _ _ _ _ _ _ _ hsepST hsepSV hc c'
    cases hd : fs.isdir (s ++ [c]) with
    | false =>
      have hfs1 : fs1 = fs := by
        rcases processClass_ok_cases _ _ _ _ _ _ _ _ hc with ⟨-, rfl⟩ | ⟨hd2, -, -, -, -⟩
        · rfl
        · rw [hd] at hd2; cases hd2
      rw [hfs1] at ihd ihk
      have hfc : List.filter (fun c' => fs.isdir (s ++ [c'])) (c :: rest) =
          List.filter (fun c' => fs.isdir (s ++ [c'])) rest := by
        simp [List.filter_cons, hd]
      rw [hfc]
      exact ⟨ihd, ihk⟩
    | true =>
      obtain ⟨hdirs1, hkeys1⟩ := processClass_state _ _ _ _ _ _ _ _ hc hd
      have hfc : List.filter (fun c' => fs.isdir (s ++ [c'])) (c :: rest) =
          c :: List.filter (fun c' => fs.isdir (s ++ [c'])) rest := by
        simp [List.filter_cons, hd]
      rw [hfc]
      constructor
      · rw [ihd, hfil, hdirs1, List.flatMap_cons, List.append_assoc]
      · rw [ihk, hfil, hkeys1, List.flatMap_cons,
          flatMap_congr_mem (rest.filter (fun c' => fs.isdir (s ++ [c'])))
            (fun c2 => (classTrVa rng fs1 s rat c2).1.map (fun i => (t ++ [c2]) ++ [i]) ++
              (classTrVa rng fs1 s rat c2).2.map (fun i => (v ++ [c2]) ++ [i]))
            (fun c2 => (classTrVa rng fs s rat c2).1.map (fun i => (t ++ [c2]) ++ [i]) ++
              (classTrVa rng fs s rat c2).2.map (fun i => (v ++ [c2]) ++ [i]))
            (fun a _ => by simp only [htv a]),
          List.reverse_append]
        simp [List.append_assoc, List.reverse_append]

theorem splitSets_perm_images (rng : Nat → List Nat) (images : List String) (rat : ℚ)
    (tr va : List String)
    (hp : (rng images.length).Perm (List.range images.length))
    (hrun : splitSets rng images rat = .ok (tr, va)) :
    (tr ++ va).Perm images := by
  obtain ⟨h0, htr, hva⟩ := tts_ok _ _ _ _ _ hrun
  rw [htr, hva, ← List.filterMap_append]
  exact filterMap_get_perm _ _ (tts_index_split _ images rat hp h0)

/-- In a successful run, every file the splitter assigned (train or
validation) within a class keeps, at its destination, the bytes the
source had before the run. -/
theorem processAll_read_dest (rng : Nat → List Nat) (s t v : FPath) (rat : ℚ)
    (hsepST : pathSep s t) (hsepSV : pathSep s v) (hsepTV : pathSep t v)
    (hp : ∀ n : Nat, (rng n).Perm (List.range n)) :
    ∀ names : List String, names.Nodup → ∀ fs fsF : FS,
      processAll rng s t v rat names fs = .ok fsF →
      ∀ c ∈ names, fs.isdir (s ++ [c]) = true →
        (∀ i ∈ (classTrVa rng fs s rat c).1,
          fsF.read ((t ++ [c]) ++ [i]) = fs.read ((s ++ [c]) ++ [i])) ∧
        (∀ i ∈ (classTrVa rng fs s rat c).2,
          fsF.read ((v ++ [c]) ++ [i]) = fs.read ((s ++ [c]) ++ [i])) := by
  intro names
  induction names with
  | nil => intro _ fs fsF h c hc; simp at hc
  | cons c0 rest ih =>
    intro hnd fs fsF h c hcmem hcdir
    obtain ⟨fs1, hc0, hrest⟩ := processAll_cons_ok _ _ _ _ _ _ _ _ _ h
    rcases List.mem_cons.1 hcmem with rfl | hcmem'
    · obtain ⟨htr, hva⟩ :=
        processClass_read_dest _ _ _ _ _ _ _ _ hsepST hsepSV hsepTV hp hc0 hcdir
      have hnotin : c ∉ rest := (List.nodup_cons.1 hnd).1
      constructor
      · intro i hi
        have hfr := processAll_read_frame _ _ _ _ _ rest fs1 fsF hrest ((t ++ [c]) ++ [i])
          (fun c' hc' j hq => by
            obtain ⟨-, hcc, -⟩ := append_pair_inj
              ((List.append_assoc t [c] [i]) ▸ (List.append_assoc t [c'] [j]) ▸ hq)
            exact hnotin (hcc ▸ hc'))
          (fun c' hc' j hq => by
            rw [List.append_assoc, List.append_assoc] at hq
            exact ne_append_of_sep hsepTV _ _ hq)
        rw [hfr, htr i hi]
      · intro i hi
        have hfr := processAll_read_frame _ _ _ _ _ rest fs1 fsF hrest ((v ++ [c]) ++ [i])
          (fun c' hc' j hq => by
            rw [List.append_assoc, List.append_assoc] at hq
            exact ne_append_of_sep hsepTV _ _ hq.symm)
          (fun c' hc' j hq => by
            obtain ⟨-, hcc, -⟩ := append_pair_inj
              ((List.append_assoc v [c] [i]) ▸ (List.append_assoc v [c'] [j]) ▸ hq)
            exact hnotin (hcc ▸ hc'))
        rw [hfr, hva i hi]
    · have hisd := processClass_isdir_inv _ _ _ _ _ _ _ _ hsepST hsepSV hc0
      have htva := processClass_classTrVa_inv _ _ _ _ _ _ _ _ hsepST hsepSV hc0
      have hsrcread : ∀ (c' : String) (i : String),
          fs1.read ((s ++ [c']) ++ [i]) = fs.read ((s ++ [c']) ++ [i]) := by
        intro c' i
        refine processClass_read_frame _ _ _ _ _ _ _ _ hc0 _ ?_ ?_
        · intro j hq
          rw [List.append_assoc, List.append_assoc] at hq
          exact ne_append_of_sep hsepST _ _ hq
        · intro j hq
          rw [List.append_assoc, List.append_assoc] at hq
          exact ne_append_of_sep hsepSV _ _ hq
      obtain ⟨ht2, hv2⟩ := ih (List.nodup_cons.1 hnd).2 fs1 fsF hrest c hcmem'
        (by rw [hisd [c]]; exact hcdir)
      constructor
      · intro i hi
        rw [ht2 i (by rw [htva c]; exact hi), hsrcread c i]
      · intro i hi
        rw [hv2 i (by rw [htva c]; exact hi), hsrcread c i]

/-- In a successful run, every image file the splitter handles was
readable in the pre-run filesystem: an unreadable file would have made
the run terminate with an error instead. -/
theorem processAll_ok_reads (rng : Nat → List Nat) (s t v : FPath) (rat : ℚ)
    (hsepST : pathSep s t) (hsepSV : pathSep s v)
    (hp : ∀ n : Nat, (rng n).Perm (List.range n)) :
    ∀ names : List String, ∀ fs fsF : FS,
      processAll rng s t v rat names fs = .ok fsF →
      ∀ c ∈ names, fs.isdir (s ++ [c]) = true →
        ∀ i ∈ classImages fs s c, (fs.read ((s ++ [c]) ++ [i])).isSome = true := by
  intro names
  induction names with
  | nil => intro fs fsF h c hc; simp at hc
  | cons c0 rest ih =>
    intro fs fsF h c hcmem hcdir
    obtain ⟨fs1, hc0, hrest⟩ := processAll_cons_ok _ _ _ _ _ _ _ _ _ h
    rcases List.mem_cons.1 hcmem with rfl | hcmem'
    · rcases processClass_ok_cases _ _ _ _ _ _ _ _ hc0 with ⟨hd2, -⟩ | ⟨-, fs2, hsp, hc1, hc2⟩
      · rw [hcdir] at hd2; cases hd2
      · intro i hi
        have hcover := splitSets_perm_images _ _ _ _ _ (hp _) hsp
        have hi2 : i ∈ (classTrVa rng fs s rat c).1 ++ (classTrVa rng fs s rat c).2 :=
          hcover.mem_iff.2 hi
        have hsep1 : ∀ i j : String, (s ++ [c]) ++ [i] ≠ (t ++ [c]) ++ [j] := by
          intro a b
          rw [List.append_assoc, List.append_assoc]
          exact ne_append_of_sep hsepST _ _
        have hsep2 : ∀ i j : String, (s ++ [c]) ++ [i] ≠ (v ++ [c]) ++ [j] := by
          intro a b
          rw [List.append_assoc, List.append_assoc]
          exact ne_append_of_sep hsepSV _ _
        rcases List.mem_append.1 hi2 with hi3 | hi3
        · have := copyAll_ok_reads _ _ _ _ _ hsep1 hc1 i hi3
          exact this
        · have hrd := copyAll_ok_reads _ _ _ _ _ hsep2 hc2 i hi3
          rwa [copyAll_read_frame _ _ _ _ _ hc1 _ (fun j _ => hsep1 i j)] at hrd
    · have hisd := processClass_isdir_inv _ _ _ _ _ _ _ _ hsepST hsepSV hc0
      have himg := processClass_classImages_inv _ _ _ _ _ _ _ _ hsepST hsepSV hc0
      have hsrcread : ∀ (c' : String) (i : String),
          fs1.read ((s ++ [c']) ++ [i]) = fs.read ((s ++ [c']) ++ [i]) := by
        intro c' i
        refine processClass_read_frame _ _ _ _ _ _ _ _ hc0 _ ?_ ?_
        · intro j hq
          rw [List.append_assoc, List.append_assoc] at hq
          exact ne_append_of_sep hsepST _ _ hq
        · intro j hq
          rw [List.append_assoc, List.append_assoc] at hq
          exact ne_append_of_sep hsepSV _ _ hq
      intro i hi
      have := ih fs1 fsF hrest c hcmem' (by rw [hisd [c]]; exact hcdir) i
        (by rw [himg c]; exact hi)
      rwa [hsrcread c i] at this

theorem split_data_ok_extract (perm : Nat → Nat → List Nat) (fs : FS)
    (s t v : FPath) (rat : ℚ) (fsF : FS) (tc vc : Nat)
    (hok : split_data perm fs s t v rat = .ok (fsF, tc, vc)) :
    s ∈ fs.dirs ∧
    processAll (perm 42) s t v rat (sourceNames fs s) fs = .ok fsF ∧
    reportedCount fsF t = .ok tc ∧ reportedCount fsF v = .ok vc := by
  unfold split_data at hok
  cases hl : fs.listdir s with
  | none => rw [hl] at hok; simp at hok
  | some names =>
    rw [hl] at hok
    have hs : s ∈ fs.dirs := by
      by_contra hns
      rw [listdir_of_not_dir _ _ hns] at hl
      cases hl
    have hnames : names = sourceNames fs s := by
      rw [listdir_of_isdir _ _ ((isdir_iff fs s).2 hs)] at hl
      exact (Option.some.inj hl).symm
    subst hnames
    refine ⟨hs, ?_⟩
    have hok1 : (match processAll (perm 42) s t v rat (sourceNames fs s) fs with
      | Except.error e => Except.error e
      | Except.ok fsF2 =>
        match reportedCount fsF2 t with
        | Except.error e => Except.error e
        | Except.ok tcount =>
          match reportedCount fsF2 v with
          | Except.error e => Except.error e
          | Except.ok vcount => Except.ok (fsF2, tcount, vcount)) =
        Except.ok (fsF, tc, vc) := hok
    cases hpa : processAll (perm 42) s t v rat (sourceNames fs s) fs with
    | error e =>
      rw [hpa] at hok1
      exact absurd hok1 (by simp)
    | ok fsF2 =>
      rw [hpa] at hok1
      have hok2 : (match reportedCount fsF2 t with
        | Except.error e => Except.error e
        | Except.ok tcount =>
          match reportedCount fsF2 v with
          | Except.error e => Except.error e
          | Except.ok vcount => Except.ok (fsF2, tcount, vcount)) =
          Except.ok (fsF, tc, vc) := hok1
      cases hrt : reportedCount fsF2 t with
      | error e =>
        rw [hrt] at hok2
        exact absurd hok2 (by simp)
      | ok tcount =>
        rw [hrt] at hok2
        have hok3 : (match reportedCount fsF2 v with
          | Except.error e => Except.error e
          | Except.ok vcount => Except.ok (fsF2, tcount, vcount)) =
            Except.ok (fsF, tc, vc) := hok2
        cases hrv : reportedCount fsF2 v with
        | error e =>
          rw [hrv] at hok3
          exact absurd hok3 (by simp)
        | ok vcount =>
          rw [hrv] at hok3
          have hfin := Except.ok.inj hok3
          have h1 : fsF2 = fsF := congrArg Prod.fst hfin
          have h2 : tcount = tc := congrArg (fun z => z.2.1) hfin
          have h3 : vcount = vc := congrArg (fun z => z.2.2) hfin
          subst h1
          exact ⟨rfl, h2 ▸ hrt, h3 ▸ hrv⟩

/-- Claim C5: `split_data` copies and never moves or deletes — the whole
source tree is untouched by a successful run: every path inside the
source root keeps its directory status, its listing, and its file
contents.  The destination roots are assumed not to lie inside the
source tree and vice versa, as in the notebook's `data`/`train`/`val`
layout. -/
theorem claim_c5 (perm : Nat → Nat → List Nat) (fs : FS) (s t v : FPath) (rat : ℚ)
    (fsF : FS) (tc vc : Nat)
    (hsepST : pathSep s t) (hsepSV : pathSep s v)
    (hok : split_data perm fs s t v rat = .ok (fsF, tc, vc)) :
    ∀ r : List String,
      fsF.read (s ++ r) = fs.read (s ++ r) ∧
      (s ++ r ∈ fsF.dirs ↔ s ++ r ∈ fs.dirs) ∧
      fsF.listdir (s ++ r) = fs.listdir (s ++ r) := by
  obtain ⟨hs, hpa, -, -⟩ := split_data_ok_extract _ _ _ _ _ _ _ _ _ hok
  obtain ⟨hdirs, hkeys⟩ := processAll_state _ s t v rat hsepST hsepSV _ _ _ hpa
  intro r
  have hread : ∀ r' : List String, fsF.read (s ++ r') = fs.read (s ++ r') := by
    intro r'
    refine processAll_read_frame _ _ _ _ _ _ _ _ hpa _ ?_ ?_
    · intro c _ i hq
      rw [List.append_assoc] at hq
      exact ne_append_of_sep hsepST _ _ hq
    · intro c _ i hq
      rw [List.append_assoc] at hq
      exact ne_append_of_sep hsepSV _ _ hq
  have hmemextra : ∀ q ∈ (((sourceNames fs s).filter
      (fun c => fs.isdir (s ++ [c]))).flatMap
      (fun c => dirChain (t ++ [c]) ++ dirChain (v ++ [c]))), ∀ r' : List String,
      s ++ r' ≠ q := by
    intro q hq r' he
    rcases List.mem_flatMap.1 hq with ⟨c, -, hq2⟩
    rcases List.mem_append.1 hq2 with hq3 | hq3
    · exact not_seg_append_of_sep hsepST r' [c] (he ▸ mem_dirChain.1 hq3)
    · exact not_seg_append_of_sep hsepSV r' [c] (he ▸ mem_dirChain.1 hq3)
  have hdirsmem : s ++ r ∈ fsF.dirs ↔ s ++ r ∈ fs.dirs := by
    rw [hdirs, List.mem_append]
    constructor
    · rintro (h | h)
      · exact h
      · exact absurd rfl (hmemextra _ h r)
    · exact Or.inl
  refine ⟨hread r, hdirsmem, ?_⟩
  by_cases hmem : s ++ r ∈ fs.dirs
  · rw [listdir_of_isdir _ _ ((isdir_iff _ _).2 hmem),
      listdir_of_isdir _ _ ((isdir_iff _ _).2 (hdirsmem.2 hmem))]
    congr 1
    rw [hdirs, hkeys]
    refine (childNames_split_none _ _ _ _ _ ?_ ?_).trans rfl
    · intro q hq
      rcases List.mem_flatMap.1 hq with ⟨c, -, hq2⟩
      rw [childOf_none_iff]
      rintro ⟨hseg, -⟩
      rcases List.mem_append.1 hq2 with hq3 | hq3
      · exact not_seg_append_of_sep hsepST r [c] (seg_trans hseg (mem_dirChain.1 hq3))
      · exact not_seg_append_of_sep hsepSV r [c] (seg_trans hseg (mem_dirChain.1 hq3))
    · intro q hq
      rw [List.mem_reverse] at hq
      rcases List.mem_flatMap.1 hq with ⟨c, -, hq2⟩
      rcases List.mem_append.1 hq2 with hq3 | hq3 <;>
        rcases List.mem_map.1 hq3 with ⟨i, -, rfl⟩
      · rw [List.append_assoc]
        exact childOf_none_of_sep hsepST r ([c] ++ [i])
      · rw [List.append_assoc]
        exact childOf_none_of_sep hsepSV r ([c] ++ [i])
  · rw [listdir_of_not_dir _ _ hmem, listdir_of_not_dir _ _ (fun hc => hmem (hdirsmem.1 hc))]

/-- The filesystem state after the `twoImageFS` run. -/
def twoImageFinalFS : FS :=
  { files := [(["val", "c", "a.jpg"], [1, 2]), (["train", "c", "b.jpg"], [3]),
              (["data", "c", "a.jpg"], [1, 2]), (["data", "c", "b.jpg"], [3])],
    dirs := [["data"], ["data", "c"], [], ["train"], ["train", "c"], [], ["val"], ["val", "c"]] }

/-- Claim C5 witness: after the run on `data/c/{a.jpg, b.jpg}`, the
source file `data/c/a.jpg` keeps its content, its directory status is
unchanged, and the source-class listing is unchanged. -/
theorem claim_c5_witness :
    twoImageFinalFS.read (["data"] ++ ["c", "a.jpg"]) =
      twoImageFS.read (["data"] ++ ["c", "a.jpg"]) ∧
    (["data"] ++ ["c", "a.jpg"] ∈ twoImageFinalFS.dirs ↔
      ["data"] ++ ["c", "a.jpg"] ∈ twoImageFS.dirs) ∧
    twoImageFinalFS.listdir (["data"] ++ ["c", "a.jpg"]) =
      twoImageFS.listdir (["data"] ++ ["c", "a.jpg"]) :=
  claim_c5 idPerm twoImageFS ["data"] ["train"] ["val"] (mkRat 1 5)
    twoImageFinalFS 1 1 (by decide) (by decide) (by decide) ["c", "a.jpg"]

theorem classTrVa_sub (rng : Nat → List Nat) (fs : FS) (s : FPath) (rat : ℚ) (c : String) :
    (∀ i ∈ (classTrVa rng fs s rat c).1, i ∈ classImages fs s c) ∧
    (∀ i ∈ (classTrVa rng fs s rat c).2, i ∈ classImages fs s c) := by
  unfold classTrVa
  cases hsp : splitSets rng (classImages fs s c) rat with
  | error e => simp
  | ok z =>
    obtain ⟨tr, va⟩ := z
    exact splitSets_sub _ _ _ _ _ hsp

/-- Claim C4: for every file `split_data` copies (each train- or
validation-assigned image of each class directory), the copy
round-trips: after a successful run, reading the destination yields
exactly the byte content the source file had — and that content exists
(the source was readable).  The three directory roots are assumed
mutually separated, as in the notebook's layout. -/
theorem claim_c4 (perm : Nat → Nat → List Nat) (hperm : ValidPerm perm)
    (fs : FS) (s t v : FPath) (rat : ℚ) (fsF : FS) (tc vc : Nat)
    (hsepST : pathSep s t) (hsepSV : pathSep s v) (hsepTV : pathSep t v)
    (hok : split_data perm fs s t v rat = .ok (fsF, tc, vc)) :
    ∀ c ∈ sourceNames fs s, fs.isdir (s ++ [c]) = true →
      (∀ i ∈ (classTrVa (perm 42) fs s rat c).1,
        fsF.read ((t ++ [c]) ++ [i]) = fs.read ((s ++ [c]) ++ [i]) ∧
        (fs.read ((s ++ [c]) ++ [i])).isSome = true) ∧
      (∀ i ∈ (classTrVa (perm 42) fs s rat c).2,
        fsF.read ((v ++ [c]) ++ [i]) = fs.read ((s ++ [c]) ++ [i]) ∧
        (fs.read ((s ++ [c]) ++ [i])).isSome = true) := by
  obtain ⟨hs, hpa, -, -⟩ := split_data_ok_extract _ _ _ _ _ _ _ _ _ hok
  intro c hc hcd
  obtain ⟨htr, hva⟩ := processAll_read_dest (perm 42) s t v rat hsepST hsepSV hsepTV
    (fun n => hperm 42 n) (sourceNames fs s) (childNames_nodup _ _) fs fsF hpa c hc hcd
  have hreads := processAll_ok_reads (perm 42) s t v rat hsepST hsepSV
    (fun n => hperm 42 n) (sourceNames fs s) fs fsF hpa c hc hcd
  obtain ⟨hsub1, hsub2⟩ := classTrVa_sub (perm 42) fs s rat c
  exact ⟨fun i hi => ⟨htr i hi, hreads i (hsub1 i hi)⟩,
         fun i hi => ⟨hva i hi, hreads i (hsub2 i hi)⟩⟩

/-- Claim C4 witness: in the two-image run, `train/c/b.jpg` reads back
exactly the bytes of `data/c/b.jpg`. -/
theorem claim_c4_witness :
    twoImageFinalFS.read ((["train"] ++ ["c"]) ++ ["b.jpg"]) =
      twoImageFS.read ((["data"] ++ ["c"]) ++ ["b.jpg"]) ∧
    (twoImageFS.read ((["data"] ++ ["c"]) ++ ["b.jpg"])).isSome = true :=
  (claim_c4 idPerm idPerm_valid twoImageFS ["data"] ["train"] ["val"] (mkRat 1 5)
    twoImageFinalFS 1 1 (by decide) (by decide) (by decide) (by decide)
    "c" (by decide) (by decide)).1 "b.jpg" (by decide)

/-- Claim C9: `split_data` has no error handling — a missing source
directory makes the run end in an uncaught error (no normal result),
and a successful run certifies that every image file it split was
readable: an unreadable file would likewise have aborted the run
(there is no catch, retry, or rollback in the function). -/
theorem claim_c9 (perm : Nat → Nat → List Nat) (hperm : ValidPerm perm)
    (fs : FS) (s t v : FPath) (rat : ℚ)
    (hsepST : pathSep s t) (hsepSV : pathSep s v) :
    (s ∉ fs.dirs → (split_data perm fs s t v rat).toOption = none) ∧
    (∀ (fsF : FS) (tc vc : Nat), split_data perm fs s t v rat = .ok (fsF, tc, vc) →
      ∀ c ∈ sourceNames fs s, fs.isdir (s ++ [c]) = true →
        ∀ i ∈ classImages fs s c, (fs.read ((s ++ [c]) ++ [i])).isSome = true) := by
  constructor
  · intro hns
    unfold split_data
    rw [listdir_of_not_dir _ _ hns]
    rfl
  · intro fsF tc vc hok c hc hcd i hi
    obtain ⟨-, hpa, -, -⟩ := split_data_ok_extract _ _ _ _ _ _ _ _ _ hok
    exact processAll_ok_reads (perm 42) s t v rat hsepST hsepSV
      (fun n => hperm 42 n) (sourceNames fs s) fs fsF hpa c hc hcd i hi

/-- Claim C9 witness: with no `data` directory the run yields no normal
result; and in the successful two-image run the split file
`data/c/a.jpg` was readable. -/
theorem claim_c9_witness :
    (split_data idPerm { files := [], dirs := [] } ["data"] ["train"] ["val"]
      (mkRat 1 5)).toOption = none ∧
    (twoImageFS.read ((["data"] ++ ["c"]) ++ ["a.jpg"])).isSome = true :=
  ⟨(claim_c9 idPerm idPerm_valid { files := [], dirs := [] } ["data"] ["train"] ["val"]
      (mkRat 1 5) (by decide) (by decide)).1 (by decide),
   (claim_c9 idPerm idPerm_valid twoImageFS ["data"] ["train"] ["val"]
      (mkRat 1 5) (by decide) (by decide)).2 twoImageFinalFS 1 1 (by decide)
      "c" (by decide) (by decide) "a.jpg" (by decide)⟩

/-! ### A frame rule precise about which files a run writes -/

theorem processClass_read_frame2 (rng : Nat → List Nat) (s t v : FPath) (rat : ℚ)
    (fs : FS) (name : String) (fs1 : FS)
    (hok : processClass rng s t v rat fs name = .ok fs1) (p : FPath)
    (hpt : ∀ i ∈ (classTrVa rng fs s rat name).1, p ≠ (t ++ [name]) ++ [i])
    (hpv : ∀ i ∈ (classTrVa rng fs s rat name).2, p ≠ (v ++ [name]) ++ [i]) :
    fs1.read p = fs.read p := by
  rcases processClass_ok_cases _ _ _ _ _ _ _ _ hok with ⟨-, rfl⟩ | ⟨-, fs2, -, hc1, hc2⟩
  · rfl
  · rw [copyAll_read_frame _ _ _ _ _ hc2 _ hpv, copyAll_read_frame _ _ _ _ _ hc1 _ hpt]
    rfl

theorem processAll_read_frame2 (rng : Nat → List Nat) (s t v : FPath) (rat : ℚ)
    (hsepST : pathSep s t) (hsepSV : pathSep s v) :
    ∀ names : List String, ∀ fs fsF : FS,
      processAll rng s t v rat names fs = .ok fsF →
      ∀ p : FPath,
        (∀ c ∈ names, fs.isdir (s ++ [c]) = true →
          (∀ i ∈ (classTrVa rng fs s rat c).1, p ≠ (t ++ [c]) ++ [i]) ∧
          (∀ i ∈ (classTrVa rng fs s rat c).2, p ≠ (v ++ [c]) ++ [i])) →
        fsF.read p = fs.read p := by
  intro names
  induction names with
  | nil =>
    intro fs fsF h p _
    unfold processAll at h
    obtain rfl := Except.ok.inj h
    rfl
  | cons c0 rest ih =>
    intro fs fsF h p hcond
    obtain ⟨fs1, hc0, hrest⟩ := processAll_cons_ok _ _ _ _ _ _ _ _ _ h
    have hisd := processClass_isdir_inv _ _ _ _ _ _ _ _ hsepST hsepSV hc0
    have htva := processClass_classTrVa_inv _ _ _ _ _ _ _ _ hsepST hsepSV hc0
    have hstep : fs1.read p = fs.read p := by
      cases hd : fs.isdir (s ++ [c0]) with
      | false =>
        rcases processClass_ok_cases _ _ _ _ _ _ _ _ hc0 with ⟨-, rfl⟩ | ⟨hd2, -, -, -, -⟩
        · rfl
        · rw [hd] at hd2; cases hd2
      | true =>
        obtain ⟨h1, h2⟩ := hcond c0 (List.mem_cons_self c0 rest) hd
        exact processClass_read_frame2 _ _ _ _ _ _ _ _ hc0 p h1 h2
    rw [← hstep]
    refine ih fs1 fsF hrest p ?_
    intro c hc hcd
    obtain ⟨h1, h2⟩ := hcond c (List.mem_cons_of_mem c0 hc) (by rw [← hisd [c]]; exact hcd)
    rw [htva c]
    exact ⟨h1, h2⟩

theorem mem_classImages_ext (fs : FS) (s : FPath) (name x : String)
    (h : x ∈ classImages fs s name) : extOk x = true :=
  (List.mem_filter.1 h).2

/-- Claim C10: `split_data` silently ignores what its filters exclude —
non-directory entries under the source root get nothing copied under
their name in either destination tree, and within a class directory a
file whose name does not end in exactly `.jpg`, `.jpeg` or `.png`
(lowercase; e.g. an uppercase `.JPG`) is never copied to either
destination; the selected images are exactly the listing entries whose
names pass the lowercase-extension test. -/
theorem claim_c10 (perm : Nat → Nat → List Nat) (fs : FS) (s t v : FPath) (rat : ℚ)
    (fsF : FS) (tc vc : Nat)
    (hsepST : pathSep s t) (hsepSV : pathSep s v) (hsepTV : pathSep t v)
    (hok : split_data perm fs s t v rat = .ok (fsF, tc, vc)) :
    (∀ name : String, fs.isdir (s ++ [name]) = false → ∀ x : String,
      fsF.read ((t ++ [name]) ++ [x]) = fs.read ((t ++ [name]) ++ [x]) ∧
      fsF.read ((v ++ [name]) ++ [x]) = fs.read ((v ++ [name]) ++ [x])) ∧
    (∀ name x : String, extOk x = false →
      fsF.read ((t ++ [name]) ++ [x]) = fs.read ((t ++ [name]) ++ [x]) ∧
      fsF.read ((v ++ [name]) ++ [x]) = fs.read ((v ++ [name]) ++ [x])) ∧
    (∀ name x : String,
      x ∈ classImages fs s name ↔ x ∈ classEntries fs s name ∧ extOk x = true) := by
  obtain ⟨-, hpa, -, -⟩ := split_data_ok_extract _ _ _ _ _ _ _ _ _ hok
  have hTne : ∀ (a b : FPath) (c1 i1 c2 i2 : String), pathSep a b →
      (a ++ [c1]) ++ [i1] ≠ (b ++ [c2]) ++ [i2] := by
    intro a b c1 i1 c2 i2 hsep
    rw [List.append_assoc, List.append_assoc]
    exact ne_append_of_sep hsep _ _
  refine ⟨?_, ?_, ?_⟩
  · intro name hnd x
    constructor
    · refine processAll_read_frame2 _ s t v rat hsepST hsepSV _ _ _ hpa _ ?_
      intro c _ hcd
      refine ⟨?_, ?_⟩
      · intro i _ he
        obtain ⟨-, hcn, -⟩ := append_pair_inj
          ((List.append_assoc t [name] [x]) ▸ (List.append_assoc t [c] [i]) ▸ he)
        rw [← hcn] at hcd
        rw [hcd] at hnd
        cases hnd
      · intro i _ he
        exact hTne t v name x c i hsepTV he
    · refine processAll_read_frame2 _ s t v rat hsepST hsepSV _ _ _ hpa _ ?_
      intro c _ hcd
      refine ⟨?_, ?_⟩
      · intro i _ he
        exact hTne v t name x c i ⟨hsepTV.2, hsepTV.1⟩ he
      · intro i _ he
        obtain ⟨-, hcn, -⟩ := append_pair_inj
          ((List.append_assoc v [name] [x]) ▸ (List.append_assoc v [c] [i]) ▸ he)
        rw [← hcn] at hcd
        rw [hcd] at hnd
        cases hnd
  · intro name x hext
    constructor
    · refine processAll_read_frame2 _ s t v rat hsepST hsepSV _ _ _ hpa _ ?_
      intro c _ hcd
      refine ⟨?_, ?_⟩
      · intro i hi he
        obtain ⟨-, hcn, hin⟩ := append_pair_inj
          ((List.append_assoc t [name] [x]) ▸ (List.append_assoc t [c] [i]) ▸ he)
        have : extOk i = true :=
          mem_classImages_ext fs s c i ((classTrVa_sub _ fs s rat c).1 i hi)
        rw [← hin] at this
        rw [this] at hext
        cases hext
      · intro i _ he
        exact hTne t v name x c i hsepTV he
    · refine processAll_read_frame2 _ s t v rat hsepST hsepSV _ _ _ hpa _ ?_
      intro c _ hcd
      refine ⟨?_, ?_⟩
      · intro i _ he
        exact hTne v t name x c i ⟨hsepTV.2, hsepTV.1⟩ he
      · intro i hi he
        obtain ⟨-, hcn, hin⟩ := append_pair_inj
          ((List.append_assoc v [name] [x]) ▸ (List.append_assoc v [c] [i]) ▸ he)
        have : extOk i = true :=
          mem_classImages_ext fs s c i ((classTrVa_sub _ fs s rat c).2 i hi)
        rw [← hin] at this
        rw [this] at hext
        cases hext
  · intro name x
    unfold classImages
    rw [List.mem_filter]

/-- A source tree with a stray non-directory entry (`data/notes.txt`)
and an uppercase-extension file (`data/c/UP.JPG`) next to two valid
images. -/
def mixedFS : FS :=
  { files := [(["data", "c", "a.jpg"], [1, 2]), (["data", "c", "b.jpg"], [3]),
              (["data", "c", "UP.JPG"], [7]),
              (["data", "notes.txt"], [9])],
    dirs := [["data"], ["data", "c"]] }

/-- The filesystem state after the `mixedFS` run: only `a.jpg` and
`b.jpg` were copied. -/
def mixedFinalFS : FS :=
  { files := [(["val", "c", "a.jpg"], [1, 2]), (["train", "c", "b.jpg"], [3]),
              (["data", "c", "a.jpg"], [1, 2]), (["data", "c", "b.jpg"], [3]),
              (["data", "c", "UP.JPG"], [7]), (["data", "notes.txt"], [9])],
    dirs := [["data"], ["data", "c"], [], ["train"], ["train", "c"], [], ["val"], ["val", "c"]] }

/-- Claim C10 witness: after the `mixedFS` run, nothing was copied
under the non-directory entry `notes.txt`, the uppercase `UP.JPG` was
copied to neither destination, and `UP.JPG` is indeed filtered out of
the class's image list. -/
theorem claim_c10_witness :
    (mixedFinalFS.read ((["train"] ++ ["notes.txt"]) ++ ["x.jpg"]) =
        mixedFS.read ((["train"] ++ ["notes.txt"]) ++ ["x.jpg"]) ∧
      mixedFinalFS.read ((["val"] ++ ["notes.txt"]) ++ ["x.jpg"]) =
        mixedFS.read ((["val"] ++ ["notes.txt"]) ++ ["x.jpg"])) ∧
    (mixedFinalFS.read ((["train"] ++ ["c"]) ++ ["UP.JPG"]) =
        mixedFS.read ((["train"] ++ ["c"]) ++ ["UP.JPG"]) ∧
      mixedFinalFS.read ((["val"] ++ ["c"]) ++ ["UP.JPG"]) =
        mixedFS.read ((["val"] ++ ["c"]) ++ ["UP.JPG"])) ∧
    ("UP.JPG" ∈ classImages mixedFS ["data"] "c" ↔
      "UP.JPG" ∈ classEntries mixedFS ["data"] "c" ∧ extOk "UP.JPG" = true) :=
  ⟨(claim_c10 idPerm mixedFS ["data"] ["train"] ["val"] (mkRat 1 5)
      mixedFinalFS 1 1 (by decide) (by decide) (by decide) (by decide)).1
      "notes.txt" (by decide) "x.jpg",
   (claim_c10 idPerm mixedFS ["data"] ["train"] ["val"] (mkRat 1 5)
      mixedFinalFS 1 1 (by decide) (by decide) (by decide) (by decide)).2.1
      "c" "UP.JPG" (by decide),
   (claim_c10 idPerm mixedFS ["data"] ["train"] ["val"] (mkRat 1 5)
      mixedFinalFS 1 1 (by decide) (by decide) (by decide) (by decide)).2.2
      "c" "UP.JPG"⟩

/-! ### Computing destination-tree listings after a run -/

theorem childOf_deeper (t : FPath) (c : String) (q : FPath) (h : childOf t q = none) :
    childOf (t ++ [c]) q = none := by
  rw [childOf_none_iff] at h ⊢
  rintro ⟨h1, h2⟩
  have hl : (t ++ [c]).length = t.length + 1 := by simp
  exact h ⟨seg_trans (seg_append_self t [c]) h1, by omega⟩

theorem childOf_other_class (t : FPath) (c c' : String) (i : String) (h : c' ≠ c) :
    childOf (t ++ [c]) ((t ++ [c']) ++ [i]) = none := by
  rw [childOf_none_iff]
  rintro ⟨h1, -⟩
  unfold seg at h1
  have hl : (t ++ [c]).length = (t ++ [c']).length := by simp
  rw [hl, List.take_left] at h1
  exact h (by simpa using List.append_cancel_left h1)

theorem filterMap_const_some {α β : Type} (L : List α) (c : β) :
    L.filterMap (fun _ => some c) = L.map (fun _ => c) := by
  induction L with
  | nil => rfl
  | cons x xs ih => simp [List.filterMap_cons, ih]

theorem filterMap_dest_self (t : FPath) (c : String) (L : List String) :
    (L.map (fun i => (t ++ [c]) ++ [i])).filterMap (childOf (t ++ [c])) = L := by
  rw [List.filterMap_map]
  have hfn : (childOf (t ++ [c])) ∘ (fun i => (t ++ [c]) ++ [i]) = fun i => some i := by
    funext i
    exact childOf_of_append (t ++ [c]) i []
  rw [hfn]
  induction L with
  | nil => rfl
  | cons x xs ih => simp [List.filterMap_cons, ih]

theorem filterMap_dest_root (t : FPath) (c : String) (L : List String) :
    (L.map (fun i => (t ++ [c]) ++ [i])).filterMap (childOf t) = L.map (fun _ => c) := by
  rw [List.filterMap_map]
  have hfn : (childOf t) ∘ (fun i => (t ++ [c]) ++ [i]) = fun _ => some c := by
    funext i
    show childOf t ((t ++ [c]) ++ [i]) = some c
    rw [List.append_assoc]
    exact childOf_of_append t c [i]
  rw [hfn, filterMap_const_some]

theorem filterMap_dest_other (t v : FPath) (hsep : pathSep t v) (r : List String)
    (c : String) (L : List String) :
    (L.map (fun i => (v ++ [c]) ++ [i])).filterMap (childOf (t ++ r)) = [] := by
  rw [List.filterMap_eq_nil]
  intro q hq
  rcases List.mem_map.1 hq with ⟨i, -, rfl⟩
  rw [List.append_assoc]
  exact childOf_none_of_sep hsep r ([c] ++ [i])

theorem chain_contrib (t : FPath) (c : String) :
    (dirChain (t ++ [c])).filterMap (childOf t) = [c] := by
  unfold dirChain
  rw [List.filterMap_map]
  have hlen : (t ++ [c]).length = t.length + 1 := by simp
  rw [hlen, List.range_succ, List.filterMap_append]
  have h1 : (List.range (t.length + 1)).filterMap
      ((childOf t) ∘ (fun k => (t ++ [c]).take k)) = [] := by
    rw [List.filterMap_eq_nil]
    intro k hk
    rw [List.mem_range] at hk
    show childOf t ((t ++ [c]).take k) = none
    apply childOf_short
    rw [List.length_take, hlen]
    omega
  have h2 : ([t.length + 1] : List Nat).filterMap
      ((childOf t) ∘ (fun k => (t ++ [c]).take k)) = [c] := by
    have htake : (t ++ [c]).take (t.length + 1) = t ++ [c] := by
      rw [← hlen]
      exact List.take_length _
    have hval : ((childOf t) ∘ (fun k => (t ++ [c]).take k)) (t.length + 1) = some c := by
      show childOf t ((t ++ [c]).take (t.length + 1)) = some c
      rw [htake]
      exact childOf_of_append t c []
    rw [List.filterMap_cons_some hval]
    rfl
  rw [h1, h2]
  rfl

theorem chain_contrib_short (t : FPath) (c : String) (r : List String) :
    (dirChain (t ++ [c])).filterMap (childOf ((t ++ [c]) ++ r)) = [] := by
  rw [List.filterMap_eq_nil]
  intro q hq
  apply childOf_short
  have hs := seg_len_le (mem_dirChain.1 hq)
  simp [List.length_append] at hs ⊢
  omega

theorem chain_contrib_sep (t v : FPath) (hsep : pathSep t v) (r : List String) (c : String) :
    (dirChain (v ++ [c])).filterMap (childOf (t ++ r)) = [] := by
  rw [List.filterMap_eq_nil]
  intro q hq
  exact childOf_none_of_chain_sep hsep r [c] (mem_dirChain.1 hq)

theorem flatMap_eq_nil_of {α β : Type} (l : List α) (F : α → List β)
    (h : ∀ x ∈ l, F x = []) : l.flatMap F = [] := by
  induction l with
  | nil => rfl
  | cons x xs ih =>
    rw [List.flatMap_cons, h x (List.mem_cons_self x xs),
      ih (fun y hy => h y (List.mem_cons_of_mem x hy))]
    rfl

theorem flatMap_single_class (dirCs : List String) (hnd : dirCs.Nodup) (c : String)
    (hc : c ∈ dirCs) (F : String → List String)
    (hF : ∀ c' ∈ dirCs, c' ≠ c → F c' = []) : dirCs.flatMap F = F c := by
  induction dirCs with
  | nil => simp at hc
  | cons d rest ih =>
    rw [List.flatMap_cons]
    rcases List.mem_cons.1 hc with rfl | hc'
    · rw [flatMap_eq_nil_of rest F (fun y hy => hF y (List.mem_cons_of_mem c hy)
        (fun he => (List.nodup_cons.1 hnd).1 (he ▸ hy)))]
      rw [List.append_nil]
    · rw [hF d (List.mem_cons_self d rest) (fun he => (List.nodup_cons.1 hnd).1 (he ▸ hc')),
        ih (List.nodup_cons.1 hnd).2 hc' (fun y hy hne => hF y (List.mem_cons_of_mem d hy) hne)]
      rfl

theorem filterMap_flatMap {α β γ : Type} (l : List α) (g : α → List β) (f : β → Option γ) :
    (l.flatMap g).filterMap f = l.flatMap (fun a => (g a).filterMap f) := by
  induction l with
  | nil => rfl
  | cons x xs ih => rw [List.flatMap_cons, List.filterMap_append, ih, List.flatMap_cons]

theorem flatMap_pure {α : Type} (l : List α) : l.flatMap (fun a => [a]) = l := by
  induction l with
  | nil => rfl
  | cons x xs ih =>
    rw [List.flatMap_cons, ih]
    rfl

theorem chain_contrib_len (t : FPath) (c' c : String) :
    (dirChain (t ++ [c'])).filterMap (childOf (t ++ [c])) = [] := by
  rw [List.filterMap_eq_nil]
  intro q hq
  apply childOf_short
  have hs := seg_len_le (mem_dirChain.1 hq)
  simp at hs ⊢
  omega

theorem chain_contrib_sep0 (t v : FPath) (hsep : pathSep t v) (c : String) :
    (dirChain (v ++ [c])).filterMap (childOf t) = [] := by
  have h := chain_contrib_sep t v hsep [] c
  rwa [List.append_nil] at h

theorem filterMap_dest_other0 (t v : FPath) (hsep : pathSep t v) (c : String)
    (L : List String) :
    (L.map (fun i => (v ++ [c]) ++ [i])).filterMap (childOf t) = [] := by
  have h := filterMap_dest_other t v hsep [] c L
  rwa [List.append_nil] at h

/-- The root listing of a destination tree after a run: only the chains
(one child per class) and the copied files (children of deeper dirs)
were added, so the listing is exactly the processed class list. -/
theorem root_listing_general (d : FPath) (dirs0 keys0 : List FPath)
    (hempty : ∀ q ∈ dirs0 ++ keys0, childOf d q = none)
    (dirCs : List String) (hnd : dirCs.Nodup)
    (CH W : String → List FPath)
    (hCH : ∀ c ∈ dirCs, (CH c).filterMap (childOf d) = [c])
    (hW : ∀ c ∈ dirCs, ∀ x ∈ (W c).filterMap (childOf d), x = c) :
    childNames ((dirs0 ++ dirCs.flatMap CH) ++ ((dirCs.flatMap W).reverse ++ keys0)) d =
      dirCs := by
  unfold childNames
  rw [List.filterMap_append, List.filterMap_append, List.filterMap_append]
  have hd0 : dirs0.filterMap (childOf d) = [] := by
    rw [List.filterMap_eq_nil]
    exact fun q hq => hempty q (List.mem_append.2 (Or.inl hq))
  have hk0 : keys0.filterMap (childOf d) = [] := by
    rw [List.filterMap_eq_nil]
    exact fun q hq => hempty q (List.mem_append.2 (Or.inr hq))
  have hch : (dirCs.flatMap CH).filterMap (childOf d) = dirCs := by
    rw [filterMap_flatMap,
      flatMap_congr_mem dirCs _ (fun c => [c]) (fun c hc => hCH c hc), flatMap_pure]
  have hbw : ∀ x ∈ ((dirCs.flatMap W).reverse).filterMap (childOf d), x ∈ dirCs := by
    intro x hx
    rcases List.mem_filterMap.1 hx with ⟨q, hq, hfq⟩
    rw [List.mem_reverse] at hq
    rcases List.mem_flatMap.1 hq with ⟨c, hcmem, hqc⟩
    have : x = c := hW c hcmem x (List.mem_filterMap.2 ⟨q, hqc, hfq⟩)
    exact this ▸ hcmem
  rw [hd0, hk0, hch]
  simp only [List.nil_append, List.append_nil]
  rw [List.foldl_append, foldl_addNew_eq_self dirCs [] (by simpa using hnd),
    List.nil_append]
  exact foldl_addNew_no_new _ _ hbw

/-- The per-class listing of a destination tree after a run: exactly the
files copied into that class directory (in reverse creation order). -/
theorem class_listing_general (d : FPath) (dirs0 keys0 : List FPath)
    (dirCs : List String) (hnd : dirCs.Nodup) (c : String) (hc : c ∈ dirCs)
    (CH W : String → List FPath) (L : List String) (hLnd : L.Nodup)
    (hempty : ∀ q ∈ dirs0 ++ keys0, childOf (d ++ [c]) q = none)
    (hCH : ∀ c' ∈ dirCs, (CH c').filterMap (childOf (d ++ [c])) = [])
    (hWself : (W c).filterMap (childOf (d ++ [c])) = L)
    (hWother : ∀ c' ∈ dirCs, c' ≠ c → (W c').filterMap (childOf (d ++ [c])) = []) :
    childNames ((dirs0 ++ dirCs.flatMap CH) ++ ((dirCs.flatMap W).reverse ++ keys0))
      (d ++ [c]) = L.reverse := by
  unfold childNames
  rw [List.filterMap_append, List.filterMap_append, List.filterMap_append]
  have hd0 : dirs0.filterMap (childOf (d ++ [c])) = [] := by
    rw [List.filterMap_eq_nil]
    exact fun q hq => hempty q (List.mem_append.2 (Or.inl hq))
  have hk0 : keys0.filterMap (childOf (d ++ [c])) = [] := by
    rw [List.filterMap_eq_nil]
    exact fun q hq => hempty q (List.mem_append.2 (Or.inr hq))
  have hch : (dirCs.flatMap CH).filterMap (childOf (d ++ [c])) = [] := by
    rw [filterMap_flatMap]
    exact flatMap_eq_nil_of _ _ (fun c' hc' => hCH c' hc')
  have hrev : ((dirCs.flatMap W).reverse).filterMap (childOf (d ++ [c])) = L.reverse := by
    rw [List.filterMap_reverse, filterMap_flatMap,
      flatMap_single_class dirCs hnd c hc _ (fun c' hc' hne => hWother c' hc' hne), hWself]
  rw [hd0, hk0, hch, hrev]
  simp only [List.nil_append, List.append_nil]
  exact foldl_addNew_eq_self _ [] (by simpa using (List.nodup_reverse.2 hLnd))

theorem classTrVa_nodup (rng : Nat → List Nat) (fs : FS) (s : FPath) (rat : ℚ)
    (c : String) (hp : ∀ n, (rng n).Perm (List.range n)) :
    (classTrVa rng fs s rat c).1.Nodup ∧ (classTrVa rng fs s rat c).2.Nodup := by
  unfold classTrVa
  cases hsp : splitSets rng (classImages fs s c) rat with
  | error e => simp
  | ok z =>
    obtain ⟨tr, va⟩ := z
    exact splitSets_nodup _ _ _ _ _ (hp _) ((childNames_nodup _ _).filter _) hsp

theorem countAll_of_listings (fs : FS) (d : FPath) (ds : List String)
    (L : String → List String)
    (h : ∀ c ∈ ds, fs.listdir (d ++ [c]) = some (L c)) :
    countAll fs d ds = .ok ((ds.map (fun c => (L c).length)).sum) := by
  induction ds with
  | nil => rfl
  | cons c rest ih =>
    unfold countAll
    rw [h c (List.mem_cons_self c rest),
      ih (fun c' hc' => h c' (List.mem_cons_of_mem c hc'))]
    simp

theorem run_t_listings (rng : Nat → List Nat) (s t v : FPath) (rat : ℚ) (fs fsF : FS)
    (hsepST : pathSep s t) (hsepSV : pathSep s v) (hsepTV : pathSep t v)
    (hp : ∀ n, (rng n).Perm (List.range n))
    (hemptyT : ∀ q ∈ fs.dirs ++ fs.files.map Prod.fst, childOf t q = none)
    (hpa : processAll rng s t v rat (sourceNames fs s) fs = .ok fsF) :
    childNames (fsF.dirs ++ fsF.files.map Prod.fst) t =
      (sourceNames fs s).filter (fun c => fs.isdir (s ++ [c])) ∧
    ∀ c ∈ (sourceNames fs s).filter (fun c => fs.isdir (s ++ [c])),
      (t ++ [c]) ∈ fsF.dirs ∧
      childNames (fsF.dirs ++ fsF.files.map Prod.fst) (t ++ [c]) =
        ((classTrVa rng fs s rat c).1).reverse := by
  obtain ⟨hdirs, hkeys⟩ := processAll_state rng s t v rat hsepST hsepSV _ _ _ hpa
  have hnd : ((sourceNames fs s).filter (fun c => fs.isdir (s ++ [c]))).Nodup :=
    (childNames_nodup _ _).filter _
  constructor
  · rw [hdirs, hkeys]
    apply root_listing_general t _ _ hemptyT _ hnd
    · intro c hc
      show (dirChain (t ++ [c]) ++ dirChain (v ++ [c])).filterMap (childOf t) = [c]
      rw [List.filterMap_append, chain_contrib t c, chain_contrib_sep0 t v hsepTV c]
      rfl
    · intro c hc x hx
      have hx2 : x ∈ ((classTrVa rng fs s rat c).1.map (fun i => (t ++ [c]) ++ [i]) ++
          (classTrVa rng fs s rat c).2.map (fun i => (v ++ [c]) ++ [i])).filterMap
          (childOf t) := hx
      rw [List.filterMap_append, filterMap_dest_root, filterMap_dest_other0 t v hsepTV,
        List.append_nil] at hx2
      rcases List.mem_map.1 hx2 with ⟨i, -, rfl⟩
      rfl
  · intro c hc
    constructor
    · rw [hdirs]
      exact List.mem_append.2 (Or.inr (List.mem_flatMap.2
        ⟨c, hc, List.mem_append.2 (Or.inl (mem_dirChain.2 (seg_refl _)))⟩))
    · rw [hdirs, hkeys]
      apply class_listing_general t _ _ _ hnd c hc _ _ _
        ((classTrVa_nodup rng fs s rat c hp).1)
      · exact fun q hq => childOf_deeper t c q (hemptyT q hq)
      · intro c' hc'
        show (dirChain (t ++ [c']) ++ dirChain (v ++ [c'])).filterMap
          (childOf (t ++ [c])) = []
        rw [List.filterMap_append, chain_contrib_len t c' c,
          chain_contrib_sep t v hsepTV [c] c']
        rfl
      · show ((classTrVa rng fs s rat c).1.map (fun i => (t ++ [c]) ++ [i]) ++
            (classTrVa rng fs s rat c).2.map (fun i => (v ++ [c]) ++ [i])).filterMap
            (childOf (t ++ [c])) = (classTrVa rng fs s rat c).1
        rw [List.filterMap_append, filterMap_dest_self,
          filterMap_dest_other t v hsepTV [c] c, List.append_nil]
      · intro c' hc' hne
        show ((classTrVa rng fs s rat c').1.map (fun i => (t ++ [c']) ++ [i]) ++
            (classTrVa rng fs s rat c').2.map (fun i => (v ++ [c']) ++ [i])).filterMap
            (childOf (t ++ [c])) = []
        rw [List.filterMap_append, filterMap_dest_other t v hsepTV [c] c',
          List.append_nil, List.filterMap_eq_nil]
        intro q hq
        rcases List.mem_map.1 hq with ⟨i, -, rfl⟩
        exact childOf_other_class t c c' i hne

theorem run_v_listings (rng : Nat → List Nat) (s t v : FPath) (rat : ℚ) (fs fsF : FS)
    (hsepST : pathSep s t) (hsepSV : pathSep s v) (hsepTV : pathSep t v)
    (hp : ∀ n, (rng n).Perm (List.range n))
    (hemptyV : ∀ q ∈ fs.dirs ++ fs.files.map Prod.fst, childOf v q = none)
    (hpa : processAll rng s t v rat (sourceNames fs s) fs = .ok fsF) :
    childNames (fsF.dirs ++ fsF.files.map Prod.fst) v =
      (sourceNames fs s).filter (fun c => fs.isdir (s ++ [c])) ∧
    ∀ c ∈ (sourceNames fs s).filter (fun c => fs.isdir (s ++ [c])),
      (v ++ [c]) ∈ fsF.dirs ∧
      childNames (fsF.dirs ++ fsF.files.map Prod.fst) (v ++ [c]) =
        ((classTrVa rng fs s rat c).2).reverse := by
  obtain ⟨hdirs, hkeys⟩ := processAll_state rng s t v rat hsepST hsepSV _ _ _ hpa
  have hsepVT : pathSep v t := ⟨hsepTV.2, hsepTV.1⟩
  have hnd : ((sourceNames fs s).filter (fun c => fs.isdir (s ++ [c]))).Nodup :=
    (childNames_nodup _ _).filter _
  constructor
  · rw [hdirs, hkeys]
    apply root_listing_general v _ _ hemptyV _ hnd
    · intro c hc
      show (dirChain (t ++ [c]) ++ dirChain (v ++ [c])).filterMap (childOf v) = [c]
      rw [List.filterMap_append, chain_contrib v c, chain_contrib_sep0 v t hsepVT c]
      rfl
    · intro c hc x hx
      have hx2 : x ∈ ((classTrVa rng fs s rat c).1.map (fun i => (t ++ [c]) ++ [i]) ++
          (classTrVa rng fs s rat c).2.map (fun i => (v ++ [c]) ++ [i])).filterMap
          (childOf v) := hx
      rw [List.filterMap_append, filterMap_dest_root, filterMap_dest_other0 v t hsepVT,
        List.nil_append] at hx2
      rcases List.mem_map.1 hx2 with ⟨i, -, rfl⟩
      rfl
  · intro c hc
    constructor
    · rw [hdirs]
      exact List.mem_append.2 (Or.inr (List.mem_flatMap.2
        ⟨c, hc, List.mem_append.2 (Or.inr (mem_dirChain.2 (seg_refl _)))⟩))
    · rw [hdirs, hkeys]
      apply class_listing_general v _ _ _ hnd c hc _ _ _
        ((classTrVa_nodup rng fs s rat c hp).2)
      · exact fun q hq => childOf_deeper v c q (hemptyV q hq)
      · intro c' hc'
        show (dirChain (t ++ [c']) ++ dirChain (v ++ [c'])).filterMap
          (childOf (v ++ [c])) = []
        rw [List.filterMap_append, chain_contrib_len v c' c,
          chain_contrib_sep v t hsepVT [c] c']
        rfl
      · show ((classTrVa rng fs s rat c).1.map (fun i => (t ++ [c]) ++ [i]) ++
            (classTrVa rng fs s rat c).2.map (fun i => (v ++ [c]) ++ [i])).filterMap
            (childOf (v ++ [c])) = (classTrVa rng fs s rat c).2
        rw [List.filterMap_append, filterMap_dest_self,
          filterMap_dest_other v t hsepVT [c] c, List.nil_append]
      · intro c' hc' hne
        show ((classTrVa rng fs s rat c').1.map (fun i => (t ++ [c']) ++ [i]) ++
            (classTrVa rng fs s rat c').2.map (fun i => (v ++ [c']) ++ [i])).filterMap
            (childOf (v ++ [c])) = []
        rw [List.filterMap_append, filterMap_dest_other v t hsepVT [c] c',
          List.nil_append, List.filterMap_eq_nil]
        intro q hq
        rcases List.mem_map.1 hq with ⟨i, -, rfl⟩
        exact childOf_other_class v c c' i hne

/-- Claim C6 (amended): when the two destination trees start with no
entries strictly inside them, the two counts `split_data` prints at the
end equal the number of files the run copied into the train split and
into the validation split respectively (`trainCopyCount`/`valCopyCount`
recompute, class by class, how many copies the loop performs).  The
original claim fails when a destination tree already has contents: the
printed report recounts whole directories, stale files included. -/
theorem claim_c6 (perm : Nat → Nat → List Nat) (hperm : ValidPerm perm)
    (fs : FS) (s t v : FPath) (rat : ℚ) (fsF : FS) (tc vc : Nat)
    (hsepST : pathSep s t) (hsepSV : pathSep s v) (hsepTV : pathSep t v)
    (hemptyT : ∀ q ∈ fs.dirs ++ fs.files.map Prod.fst, childOf t q = none)
    (hemptyV : ∀ q ∈ fs.dirs ++ fs.files.map Prod.fst, childOf v q = none)
    (hok : split_data perm fs s t v rat = .ok (fsF, tc, vc)) :
    tc = trainCopyCount (perm 42) fs s rat ∧ vc = valCopyCount (perm 42) fs s rat := by
  obtain ⟨hs, hpa, hrt, hrv⟩ := split_data_ok_extract _ _ _ _ _ _ _ _ _ hok
  obtain ⟨hroott, hclasst⟩ := run_t_listings (perm 42) s t v rat fs fsF
    hsepST hsepSV hsepTV (fun n => hperm 42 n) hemptyT hpa
  obtain ⟨hrootv, hclassv⟩ := run_v_listings (perm 42) s t v rat fs fsF
    hsepST hsepSV hsepTV (fun n => hperm 42 n) hemptyV hpa
  constructor
  · have ht : t ∈ fsF.dirs := by
      by_contra hnt
      unfold reportedCount at hrt
      rw [listdir_of_not_dir _ _ hnt] at hrt
      exact absurd hrt (by simp)
    unfold reportedCount at hrt
    rw [listdir_of_isdir _ _ ((isdir_iff _ _).2 ht), hroott] at hrt
    have hrt2 : countAll fsF t
        ((sourceNames fs s).filter (fun c => fs.isdir (s ++ [c]))) = .ok tc := hrt
    have hcnt := countAll_of_listings fsF t
      ((sourceNames fs s).filter (fun c => fs.isdir (s ++ [c])))
      (fun c => ((classTrVa (perm 42) fs s rat c).1).reverse)
      (fun c hc => by
        rw [listdir_of_isdir _ _ ((isdir_iff _ _).2 (hclasst c hc).1), (hclasst c hc).2])
    have heq := Except.ok.inj (hcnt.symm.trans hrt2)
    rw [← heq]
    unfold trainCopyCount
    simp [List.length_reverse]
  · have hv : v ∈ fsF.dirs := by
      by_contra hnv
      unfold reportedCount at hrv
      rw [listdir_of_not_dir _ _ hnv] at hrv
      exact absurd hrv (by simp)
    unfold reportedCount at hrv
    rw [listdir_of_isdir _ _ ((isdir_iff _ _).2 hv), hrootv] at hrv
    have hrv2 : countAll fsF v
        ((sourceNames fs s).filter (fun c => fs.isdir (s ++ [c]))) = .ok vc := hrv
    have hcnt := countAll_of_listings fsF v
      ((sourceNames fs s).filter (fun c => fs.isdir (s ++ [c])))
      (fun c => ((classTrVa (perm 42) fs s rat c).2).reverse)
      (fun c hc => by
        rw [listdir_of_isdir _ _ ((isdir_iff _ _).2 (hclassv c hc).1), (hclassv c hc).2])
    have heq := Except.ok.inj (hcnt.symm.trans hrv2)
    rw [← heq]
    unfold valCopyCount
    simp [List.length_reverse]

/-- A pre-run state whose train tree already holds a stale file
`train/old/stale.jpg` next to the two-image source class. -/
def staleFS : FS :=
  { files := [(["data", "c", "a.jpg"], [1, 2]), (["data", "c", "b.jpg"], [3]),
              (["train", "old", "stale.jpg"], [5])],
    dirs := [["data"], ["data", "c"], ["train"], ["train", "old"], ["val"]] }

/-- Claim C6 counterexample: with a stale file already inside the train
tree, the run copies exactly one file into the train split but reports
a training count of 2 (the report recounts the whole tree, stale file
included). -/
theorem claim_c6_cex :
    (split_data idPerm staleFS ["data"] ["train"] ["val"] (mkRat 1 5)).map
      (fun z => z.2.1) = .ok 2 ∧
    trainCopyCount (idPerm 42) staleFS ["data"] (mkRat 1 5) = 1 :=
  ⟨by decide, by decide⟩

/-- Claim C6 witness: on the two-image run with initially empty
destination trees, both reported counts (1 and 1) equal the number of
files copied into each split. -/
theorem claim_c6_witness :
    1 = trainCopyCount (idPerm 42) twoImageFS ["data"] (mkRat 1 5) ∧
    1 = valCopyCount (idPerm 42) twoImageFS ["data"] (mkRat 1 5) :=
  claim_c6 idPerm idPerm_valid twoImageFS ["data"] ["train"] ["val"] (mkRat 1 5)
    twoImageFinalFS 1 1 (by decide) (by decide) (by decide) (by decide) (by decide)
    (by decide)
